import Mathlib

/-!
Verification development for the `autograder` repository.

The Python sources are shallowly embedded as executable Lean definitions:

* `src/grader.py` — `Grader.grade_submission` (result comparison),
  `Grader.generate_test_calls` (call planning) and
  `Grader._write_test_execution` (harness synthesis);
* `src/run_in_sandbox.py` — `run_script` (isolated execution);
* `src/test_cases.py` — `TestCaseGenerator.generate_num`,
  `generate_string`, `generate_bool_or_none`, `generate_array`,
  `generate_dict`.

Randomness (`random.randint`, `random.random`, `random.choices`) is
modelled in two complementary ways, both standard for shallow embeddings
of RNG-using code:

* an *oracle* model, where each call site receives a draw sequence and
  theorems quantify over all sequences that satisfy the documented
  contract of the primitive (e.g. `randint(a, b)` returns a value in
  `[a, b]`); and
* a *state-threaded* model of the process-global `random` module, a
  stream of raw draws plus a position, used for the claims about global
  state and about the composite (array/dict) generators.

Python exceptions are modelled with `Except`: a returned `.error` marks
an exception escaping the embedded function.
-/

namespace Autograder

/-! ### Small Python primitives -/

/-- Python `int(q)` on an exact rational: truncation toward zero
(`int(1.5) = 1`, `int(-1.5) = -1`).  Used by `generate_num`, which calls
`random.randint(int(lower), int(upper))`. -/
def pyInt (q : ℚ) : Int :=
  q.num.tdiv q.den

/-- Exceptions that the embedded code can raise. -/
inductive PyError where
  | zeroDivisionError
  | indexError
  | valueError
  deriving DecidableEq, Repr

instance {ε α : Type} [DecidableEq ε] [DecidableEq α] :
    DecidableEq (Except ε α) := fun a b =>
  match a, b with
  | .error e, .error f =>
    if h : e = f then isTrue (congrArg Except.error h)
    else isFalse fun hh => h (Except.error.inj hh)
  | .ok x, .ok y =>
    if h : x = y then isTrue (congrArg Except.ok h)
    else isFalse fun hh => h (Except.ok.inj hh)
  | .error _, .ok _ => isFalse fun hh => Except.noConfusion hh
  | .ok _, .error _ => isFalse fun hh => Except.noConfusion hh

/-! ### `src/grader.py` — result comparison (`Grader.grade_submission`) -/

/-- The dictionary returned by `run_script` (`src/run_in_sandbox.py`):
`{"returncode": …, "stdout": …, "stderr": …, "success": …}`. -/
structure RunResult where
  returncode : Int
  stdout : String
  stderr : String
  success : Bool
  deriving DecidableEq, Repr

/-- One record of the printed `_results` list:
`{'return_value': …, 'heap_param_values': {…}}`.  The heap dict is an
insertion-ordered association list with distinct keys, as Python dicts
are. -/
structure ResultRecord (α : Type) where
  return_value : α
  heap_param_values : List (String × α)
  deriving DecidableEq, Repr

/-- One entry of the per-test `results` list built by
`Grader.grade_submission`. -/
structure TestDiagnostic (α : Type) where
  test : Nat
  passed : Bool
  expected_return : α
  got_return : α
  expected_heap : List (String × α)
  got_heap : List (String × α)
  deriving DecidableEq, Repr

/-- The grade report dictionary returned by `Grader.grade_submission`. -/
structure GradeReport (α : Type) where
  passed : Nat
  total : Nat
  results : List (TestDiagnostic α)
  error : Option String
  deriving DecidableEq, Repr

/-- Python `==` on two dicts represented as association lists with
distinct keys: equal key sets and equal value at every key, insertion
order irrelevant. -/
def pyDictBeq [BEq α] (d₁ d₂ : List (String × α)) : Bool :=
  d₁.all (fun kv => d₂.lookup kv.1 == some kv.2) &&
    d₂.all (fun kv => d₁.lookup kv.1 == some kv.2)

/-- The per-pair test in `grade_submission`:
`student['return_value'] == expected['return_value'] and
student['heap_param_values'] == expected['heap_param_values']`. -/
def recMatch [BEq α] (student expected : ResultRecord α) : Bool :=
  (student.return_value == expected.return_value) &&
    pyDictBeq student.heap_param_values expected.heap_param_values

/-- The comparison loop
`for i, (student, expected) in enumerate(zip(student_results, expected_results))`
of `grade_submission`, returning the `passed` counter and the `results`
list.  `i` is the running index. -/
def compareLoop [BEq α] : Nat → List (ResultRecord α × ResultRecord α) →
    Nat × List (TestDiagnostic α)
  | _, [] => (0, [])
  | i, (s, e) :: rest =>
    let m := recMatch s e
    let (p, ds) := compareLoop (i + 1) rest
    ((if m then 1 else 0) + p,
      ⟨i + 1, m, e.return_value, s.return_value,
        e.heap_param_values, s.heap_param_values⟩ :: ds)

/-- `Grader.grade_submission` after the harness has been executed
(src/grader.py lines 213–249).  `runResult` is the dictionary returned
by `run_script`; `parsedStudent` / `parsedKey` are the outcomes of
`ast.literal_eval` on the captured stdout and on the answer-key file
(`.error msg` when the literal parse raises).  A returned `.error` is an
exception escaping `grade_submission`. -/
def gradeSubmission [BEq α] (runResult : RunResult)
    (parsedStudent parsedKey : Except String (List (ResultRecord α))) :
    Except String (GradeReport α) :=
  if !runResult.success then
    .ok ⟨0, 0, [], some runResult.stderr⟩
  else
    match parsedStudent with
    | .error msg => .error msg
    | .ok student =>
      match parsedKey with
      | .error msg => .error msg
      | .ok expected =>
        let (p, ds) := compareLoop 0 (student.zip expected)
        .ok ⟨p, expected.length, ds, none⟩

/-! ### `src/run_in_sandbox.py` — `run_script` -/

/-- A completed `subprocess.run` invocation (fields of
`CompletedProcess` that `run_script` reads). -/
structure CompletedProcess where
  returncode : Int
  stdout : String
  stderr : String
  deriving DecidableEq, Repr

/-- Outcome of the guarded `subprocess.run` inside `run_script`'s `try`
block: the process completed, the call raised
`subprocess.TimeoutExpired`, or it raised some other exception (whose
`str` is recorded). -/
inductive ExecAttempt where
  | completed (r : CompletedProcess)
  | timedOut
  | raised (msg : String)
  deriving DecidableEq, Repr

/-- Outcome of an *unguarded* `subprocess.run(…, capture_output=True)`
call (the copy before the `try` and the removal in the `finally`): it
either finished — with any exit status, which `run_script` never
inspects — or the call itself raised. -/
inductive CmdOutcome where
  | finished (r : CompletedProcess)
  | raised (msg : String)
  deriving DecidableEq, Repr

/-- The timeout diagnostic `f"Timeout after {timeout}s"`. -/
def timeoutMsg (timeout : Nat) : String :=
  "Timeout after " ++ toString timeout ++ "s"

/-- `run_script` (src/run_in_sandbox.py lines 60–94), as a function of
the three environment interactions it performs: the unguarded copy
command, the guarded sandbox execution, and the unguarded cleanup
command in the `finally` block.  `.error msg` is an exception escaping
`run_script`; an exception raised inside the `finally` replaces the
in-flight result. -/
def runScript (timeout : Nat) (copyStep : CmdOutcome) (exec : ExecAttempt)
    (teardown : CmdOutcome) : Except String RunResult :=
  match copyStep with
  | .raised msg => .error msg
  | .finished _ =>
    let body : RunResult :=
      match exec with
      | .completed r => ⟨r.returncode, r.stdout, r.stderr, r.returncode == 0⟩
      | .timedOut => ⟨-1, "", timeoutMsg timeout, false⟩
      | .raised msg => ⟨-1, "", msg, false⟩
    match teardown with
    | .raised msg => .error msg
    | .finished _ => .ok body

/-! ### `src/grader.py` — call planning (`Grader.generate_test_calls`) -/

/-- The inner `for name in params.keys()` loop of one iteration `i` of
`generate_test_calls` (src/grader.py lines 92–100): builds the `args`
list of `repr`'d values and the `tracked_values` snapshot, drawing each
parameter's value at `i % len(param_values[name])`.  A parameter with an
empty value list makes `i % 0` raise `ZeroDivisionError`. -/
def buildArgs (reprV : α → String) (track : List String) (i : Nat) :
    List (String × List α) → Except PyError (List String × List (String × α))
  | [] => .ok ([], [])
  | (name, vals) :: rest =>
    if h : vals.length = 0 then .error .zeroDivisionError
    else
      let value := vals.get ⟨i % vals.length, Nat.mod_lt _ (Nat.pos_of_ne_zero h)⟩
      match buildArgs reprV track i rest with
      | .error e => .error e
      | .ok (args, tracked) =>
        .ok (reprV value :: args,
          (if track.contains name then [(name, value)] else []) ++ tracked)

/-- The outer `for i in range(max_tests)` loop of `generate_test_calls`:
iteration index `i`, remaining iteration count, producing the call lines
`f"{method}({','.join(args)})"` and the per-call `tracked_values`
metadata. -/
def planIter (method : String) (reprV : α → String) (track : List String)
    (paramValues : List (String × List α)) :
    Nat → Nat → Except PyError (List String × List (List (String × α)))
  | _, 0 => .ok ([], [])
  | i, n + 1 =>
    match buildArgs reprV track i paramValues with
    | .error e => .error e
    | .ok (args, tracked) =>
      match planIter method reprV track paramValues (i + 1) n with
      | .error e => .error e
      | .ok (calls, md) =>
        .ok ((method ++ "(" ++ String.intercalate "," args ++ ")") :: calls,
          tracked :: md)

/-- `Grader.generate_test_calls` for one registered test
(src/grader.py lines 88–103), starting from the already-built
`param_values` lists: `max_tests` is the maximum list length (or 1 when
there are no parameters), and each iteration cycles every list
independently.  Returns the call lines and the tracked-value metadata,
or the exception the loop raises. -/
def generateTestCalls (method : String) (reprV : α → String)
    (paramValues : List (String × List α)) (track : List String) :
    Except PyError (List String × List (List (String × α))) :=
  let maxTests :=
    if paramValues.isEmpty then 1
    else (paramValues.map fun p => p.2.length).foldl Nat.max 0
  planIter method reprV track paramValues 0 maxTests

/-! ### String primitives for harness synthesis -/

/-- Whether `needle` is a prefix of `hay`. -/
def hasPrefixL [BEq α] : List α → List α → Bool
  | [], _ => true
  | _ :: _, [] => false
  | a :: as, b :: bs => a == b && hasPrefixL as bs

/-- Python's substring test `needle in hay` on element lists:
`needle` occurs contiguously in `hay` (the empty needle occurs in
everything). -/
def containsSub [BEq α] (needle : List α) : List α → Bool
  | [] => hasPrefixL needle []
  | c :: rest => hasPrefixL needle (c :: rest) || containsSub needle rest

/-- Python `s.replace(old, new, 1)` on character lists: replace the
leftmost occurrence of `old` (if any) by `new`.  `"".replace("", x, 1)`
is `x`, and `s.replace("", x, 1)` prepends `x`, as in Python. -/
def replaceFirstL (old new : List Char) : List Char → List Char
  | [] => if old.isEmpty then new else []
  | c :: rest =>
    if hasPrefixL old (c :: rest) then new ++ (c :: rest).drop old.length
    else c :: replaceFirstL old new rest

/-- Python `s.replace(old, new, 1)` on strings. -/
def replaceFirstS (s old new : String) : String :=
  ⟨replaceFirstL old.data new.data s.data⟩

/-! ### `src/grader.py` — harness synthesis (`Grader._write_test_execution`) -/

/-- One line of Python text written by `_write_test_execution`
(src/grader.py lines 123–151), abstracted to its shape:

* `initResults` — `_results = []`
* `sourceText code` — the embedded submission source (written by the
  caller before `_write_test_execution` runs)
* `assign var valueRepr` — `f"{var} = {valueRepr}"`, the pre-call
  binding of a tracked value
* `retBind callExpr` — `f"_ret = {callExpr}"`, the instrumented
  invocation
* `appendTracked names` — `_results.append({'return_value': _ret,
  'heap_param_values': {'p': _p, …}})` for the tracked names `p`,
  reading each post-call value through its bound name `_p`
* `appendPlain callExpr` — `_results.append({'return_value': callExpr,
  'heap_param_values': {}})`
* `printResults` — `print(_results)` -/
inductive HarnessStmt where
  | initResults
  | sourceText (code : String)
  | assign (var : String) (valueRepr : String)
  | retBind (callExpr : String)
  | appendTracked (names : List String)
  | appendPlain (callExpr : String)
  | printResults
  deriving DecidableEq, Repr

/-- The `for param_name, value in tracked_values.items()` loop of
`_write_test_execution`: writes one assignment per tracked parameter
and, in the same pass, rewrites the call line by
`line = line.replace(repr(value), var_name, 1)`.  The tracked values
are carried as their `repr` strings.  Returns the rewritten line and
the emitted assignments. -/
def writeCallBlock : List (String × String) → String → List HarnessStmt →
    String × List HarnessStmt
  | [], line, acc => (line, acc)
  | (p, r) :: rest, line, acc =>
    writeCallBlock rest (replaceFirstS line r ("_" ++ p))
      (acc ++ [.assign ("_" ++ p) r])

/-- The `for idx, line in enumerate(lines)` loop of
`_write_test_execution`: per call line, the tracked map is
`self.test_metadata[idx] if idx < len(self.test_metadata) else {}`. -/
def writeTestExecutionGo (metadata : List (List (String × String))) :
    List String → Nat → List HarnessStmt
  | [], _ => []
  | line :: rest, idx =>
    let tracked := if h : idx < metadata.length then metadata.get ⟨idx, h⟩ else []
    let block :=
      if tracked.isEmpty then [.appendPlain line]
      else
        let (line', assigns) := writeCallBlock tracked line []
        assigns ++ [.retBind line', .appendTracked (tracked.map Prod.fst)]
    block ++ writeTestExecutionGo metadata rest (idx + 1)

/-- `Grader._write_test_execution`: `_results = []`, the instrumented
calls in order, then the single `print(_results)`. -/
def writeTestExecution (lines : List String)
    (metadata : List (List (String × String))) : List HarnessStmt :=
  .initResults :: writeTestExecutionGo metadata lines 0 ++ [.printResults]

/-- The full synthesized program, as written by `generate_answer_key` /
`grade_submission`: the verbatim source text followed by the test
execution code. -/
def buildHarness (source : String) (lines : List String)
    (metadata : List (List (String × String))) : List HarnessStmt :=
  .sourceText source :: writeTestExecution lines metadata

/-- The statements emitted for one call line with its tracked map, in
closed form: for a call without tracked parameters, a single plain
append; otherwise the assignments in tracked order, the invocation with
every tracked value's `repr` replaced (first occurrence each) by its
bound name, and the record append reading the bound names. -/
def emitCall (p : String × List (String × String)) : List HarnessStmt :=
  if p.2.isEmpty then [.appendPlain p.1]
  else
    (p.2.map fun pr => .assign ("_" ++ pr.1) pr.2) ++
      [.retBind (p.2.foldl (fun l pr => replaceFirstS l pr.2 ("_" ++ pr.1)) p.1),
        .appendTracked (p.2.map Prod.fst)]

/-- Statement classifier: the appends (one `ResultRecord` each). -/
def isAppend : HarnessStmt → Bool
  | .appendTracked _ => true
  | .appendPlain _ => true
  | _ => false

/-- Statement classifier: the final `print(_results)`. -/
def isPrint : HarnessStmt → Bool
  | .printResults => true
  | _ => false

/-- The argument a parameter contributes at iteration `i`:
`repr(param_values[name][i % len(param_values[name])])`
(the `default` is never reached for a non-empty list). -/
def cyclicArg [Inhabited α] (reprV : α → String) (i : Nat)
    (p : String × List α) : String :=
  reprV (p.2.getD (i % p.2.length) default)

/-! ### `src/test_cases.py` — `generate_num` (oracle model)

`generate_num` with `decimal=None` draws
`random.randint(int(lower), int(upper))` each attempt.  `draws n` is the
value of the `n`-th `randint` call; theorems quantify over all draw
sequences satisfying `randint`'s contract
`int(lower) ≤ draws n ≤ int(upper)`.  (The `decimal is not None` branch
rounds a `random.uniform` float and is outside this embedding.) -/

/-- The `while len(results) < total_tests and attempts < max_attempts`
loop of `generate_num` (src/test_cases.py lines 31–41).  The fuel is the
number of attempts still allowed; returns the results and the final
`attempts` counter. -/
def genNumLoop (exclude : List Int) (total : Nat) (draws : Nat → Int) :
    Nat → Nat → List Int → List Int × Nat
  | 0, attempt, acc => (acc, attempt)
  | fuel + 1, attempt, acc =>
    if acc.length < total then
      let v := draws attempt
      if v ∈ exclude ∨ v ∈ acc then
        genNumLoop exclude total draws fuel (attempt + 1) acc
      else
        genNumLoop exclude total draws fuel (attempt + 1) (acc ++ [v])
    else (acc, attempt)

/-- `TestCaseGenerator.generate_num` with `decimal=None`
(src/test_cases.py lines 16–42): at most `total_tests * 100` attempts,
rejecting excluded and already-produced values.  `lower` and `upper` are
the raw (possibly fractional) bounds; they reach the loop only through
`random.randint(int(lower), int(upper))`, i.e. through the contract
assumed on `draws`.  Returns the results and the attempts used. -/
def generateNum (lower upper : ℚ) (exclude : List Int) (totalTests : Nat)
    (draws : Nat → Int) : List Int × Nat :=
  let _ := pyInt lower
  let _ := pyInt upper
  genNumLoop exclude totalTests draws (totalTests * 100) 0 []

/-! ### `src/test_cases.py` — `generate_string` (oracle model)

Strings are carried as lists of character codes (`chr` ∘ `randint`).
`lenDraw a` is the `randint(lower_len, upper_len)` draw of attempt `a`;
`charDraw a i` the code drawn for position `i`; `coin a i` the
`random.random() < 0.5` coin used when `case == "random"`.  The case
maps model `str.upper` / `str.lower` on the ASCII range. -/

/-- The `case` argument of `generate_string`. -/
inductive CaseOpt where
  | noChange
  | upper
  | lower
  | randomCase
  deriving DecidableEq, Repr

/-- ASCII model of Python `c.upper()` on one character code. -/
def upCode (c : Nat) : Nat :=
  if 97 ≤ c ∧ c ≤ 122 then c - 32 else c

/-- ASCII model of Python `c.lower()` on one character code. -/
def loCode (c : Nat) : Nat :=
  if 65 ≤ c ∧ c ≤ 90 then c + 32 else c

/-- The case transformation applied to the drawn value:
`value.upper()`, `value.lower()`, the per-character random-case map, or
no change. -/
def applyCase (case : CaseOpt) (coin : Nat → Bool) (value : List Nat) :
    List Nat :=
  match case with
  | .noChange => value
  | .upper => value.map upCode
  | .lower => value.map loCode
  | .randomCase =>
    (value.zip (List.range value.length)).map fun p =>
      if coin p.2 then upCode p.1 else loCode p.1

/-- The attempt body of `generate_string`: draw a length, draw that many
character codes, apply the case transformation. -/
def drawString (case : CaseOpt) (lenDraw : Nat → Nat)
    (charDraw : Nat → Nat → Nat) (coin : Nat → Nat → Bool) (a : Nat) :
    List Nat :=
  applyCase case (coin a) ((List.range (lenDraw a)).map (charDraw a))

/-- The rejection test of `generate_string`:
`value in exclude or any(excl in value for excl in exclude)`. -/
def stringExcluded (exclude : List (List Nat)) (value : List Nat) : Bool :=
  exclude.contains value || exclude.any fun excl => containsSub excl value

/-- The generation loop of `generate_string`
(src/test_cases.py lines 61–82), with the same fuel discipline as
`genNumLoop`. -/
def genStringLoop (exclude : List (List Nat)) (total : Nat) (case : CaseOpt)
    (lenDraw : Nat → Nat) (charDraw : Nat → Nat → Nat)
    (coin : Nat → Nat → Bool) :
    Nat → Nat → List (List Nat) → List (List Nat) × Nat
  | 0, attempt, acc => (acc, attempt)
  | fuel + 1, attempt, acc =>
    if acc.length < total then
      let value := drawString case lenDraw charDraw coin attempt
      if stringExcluded exclude value then
        genStringLoop exclude total case lenDraw charDraw coin fuel
          (attempt + 1) acc
      else if value ∈ acc then
        genStringLoop exclude total case lenDraw charDraw coin fuel
          (attempt + 1) acc
      else
        genStringLoop exclude total case lenDraw charDraw coin fuel
          (attempt + 1) (acc ++ [value])
    else (acc, attempt)

/-- `TestCaseGenerator.generate_string`
(src/test_cases.py lines 44–83): at most `total_tests * 100` attempts;
each attempt draws a length in `[lower_len, upper_len]` and character
codes in `char_range`, applies the optional case transform *after*
drawing, and rejects values equal to or containing an excluded
substring, or already produced.  The bounds reach the loop only through
the contracts assumed on `lenDraw` and `charDraw`. -/
def generateString (lowerLen upperLen : Nat) (charLo charHi : Nat)
    (exclude : List (List Nat)) (case : CaseOpt) (totalTests : Nat)
    (lenDraw : Nat → Nat) (charDraw : Nat → Nat → Nat)
    (coin : Nat → Nat → Bool) : List (List Nat) × Nat :=
  let _ := (lowerLen, upperLen, charLo, charHi)
  genStringLoop exclude totalTests case lenDraw charDraw coin
    (totalTests * 100) 0 []

/-! ### `src/test_cases.py` — the process-global `random` module
(state-threaded model)

`TestCaseGenerator` holds no generator object: `__init__` calls
`random.seed(seed)` on the *global* `random` module when a seed is
given, and every `generate_*` method draws from that global module.
The global module is modelled as a stream of raw draws plus a position;
`prng` maps a seed to the stream that reseeding installs. -/

/-- The state of the process-global `random` module: the raw draw
stream and the current position in it. -/
structure PyRng where
  raw : Nat → Nat
  pos : Nat

/-- `TestCaseGenerator.__init__` (src/test_cases.py lines 11–14):
`if seed is not None: random.seed(seed)`.  Seeding replaces the global
stream; constructing without a seed leaves the ambient global state
untouched. -/
def tcgInit (prng : Nat → Nat → Nat) (seed : Option Nat) (g : PyRng) :
    PyRng :=
  match seed with
  | some s => ⟨prng s, 0⟩
  | none => g

/-- `Grader.__init__` (src/grader.py lines 16–19) constructs
`self.generator = TestCaseGenerator()` — no seed argument. -/
def graderGeneratorInit (prng : Nat → Nat → Nat) (g : PyRng) : PyRng :=
  tcgInit prng none g

/-- `random.randint(lo, hi)` on the global module: consumes one raw
draw, maps it into `[lo, hi]`, and raises `ValueError` when the range
is empty. -/
def randintSt (lo hi : Int) (g : PyRng) : Except PyError (Int × PyRng) :=
  if hi < lo then .error .valueError
  else .ok (lo + (Int.ofNat (g.raw g.pos)) % (hi - lo + 1), ⟨g.raw, g.pos + 1⟩)

/-- The `generate_num` loop in the state-threaded model (same loop as
`genNumLoop`, drawing from the global module). -/
def genNumLoopSt (lo hi : Int) (exclude : List Int) (total : Nat) :
    Nat → PyRng → List Int → Except PyError (List Int × PyRng)
  | 0, g, acc => .ok (acc, g)
  | fuel + 1, g, acc =>
    if acc.length < total then
      match randintSt lo hi g with
      | .error e => .error e
      | .ok (v, g') =>
        if v ∈ exclude ∨ v ∈ acc then
          genNumLoopSt lo hi exclude total fuel g' acc
        else
          genNumLoopSt lo hi exclude total fuel g' (acc ++ [v])
    else .ok (acc, g)

/-- `TestCaseGenerator.generate_num` with `decimal=None`, drawing from
the global `random` module. -/
def generateNumSt (lower upper : ℚ) (exclude : List Int) (totalTests : Nat)
    (g : PyRng) : Except PyError (List Int × PyRng) :=
  genNumLoopSt (pyInt lower) (pyInt upper) exclude totalTests
    (totalTests * 100) g []

/-- A Python value produced by the generators: number, text (character
codes), boolean, `None`, list, or dict (insertion-ordered entries). -/
inductive PyVal where
  | intV (n : Int)
  | strV (codes : List Nat)
  | boolV (b : Bool)
  | noneV
  | listV (xs : List PyVal)
  | dictV (entries : List (PyVal × PyVal))
  deriving Repr

/-- Structural equality on `PyVal` (Python `==` restricted to the
values the generators build; the dict keys compared by `dictInsert`
are always scalars). -/
def pyValBeq : PyVal → PyVal → Bool
  | .intV a, .intV b => a == b
  | .strV a, .strV b => a == b
  | .boolV a, .boolV b => a == b
  | .noneV, .noneV => true
  | .listV [], .listV [] => true
  | .listV (a :: as), .listV (b :: bs) =>
    pyValBeq a b && pyValBeq (.listV as) (.listV bs)
  | .dictV [], .dictV [] => true
  | .dictV ((k, v) :: rest), .dictV ((k', v') :: rest') =>
    pyValBeq k k' && pyValBeq v v' && pyValBeq (.dictV rest) (.dictV rest')
  | _, _ => false
termination_by a b => sizeOf a + sizeOf b
decreasing_by all_goals (simp_wf; omega)

instance : BEq PyVal := ⟨pyValBeq⟩

/-- Python `d[key] = value` on an insertion-ordered dict: an existing
key keeps its position and gets the new value; a new key is appended. -/
def dictInsert : List (PyVal × PyVal) → PyVal → PyVal → List (PyVal × PyVal)
  | [], k, v => [(k, v)]
  | (k', v') :: rest, k, v =>
    if k' == k then (k', v) :: rest else (k', v') :: dictInsert rest k v

/-- `random.choices(pool, k=total)` on the global module: `total`
independent draws, each selecting one element of the non-empty `pool`
(modelled by reducing a raw draw mod the pool size). -/
def choicesSt (pool : List PyVal) : Nat → PyRng → List PyVal × PyRng
  | 0, g => ([], g)
  | k + 1, g =>
    let v := pool.getD (g.raw g.pos % pool.length) .noneV
    let (rest, g') := choicesSt pool k ⟨g.raw, g.pos + 1⟩
    (v :: rest, g')

/-- `TestCaseGenerator.generate_bool_or_none`
(src/test_cases.py lines 85–109): builds the enabled pool and samples
with replacement; an empty pool short-circuits to `[]`. -/
def genBoolSt (includeTrue includeFalse includeNone : Bool) (total : Nat)
    (g : PyRng) : List PyVal × PyRng :=
  let pool : List PyVal :=
    (if includeTrue then [.boolV true] else []) ++
      (if includeFalse then [.boolV false] else []) ++
      (if includeNone then [.noneV] else [])
  if pool.isEmpty then ([], g) else choicesSt pool total g

/-- The character draws of one `generate_string` attempt:
`''.join(chr(random.randint(char_range[0], char_range[1])) for _ in
range(length))`, consuming one draw per position. -/
def drawCharsSt (charLo charHi : Int) :
    Nat → PyRng → Except PyError (List Nat × PyRng)
  | 0, g => .ok ([], g)
  | n + 1, g =>
    match randintSt charLo charHi g with
    | .error e => .error e
    | .ok (c, g₁) =>
      match drawCharsSt charLo charHi n g₁ with
      | .error e => .error e
      | .ok (rest, g₂) => .ok (c.toNat :: rest, g₂)

/-- The per-character random-case pass
(`c.upper() if random.random() < 0.5 else c.lower()`), consuming one
raw draw per character; parity of the raw draw models the coin. -/
def randCaseSt : List Nat → PyRng → List Nat × PyRng
  | [], g => ([], g)
  | c :: cs, g =>
    let c' := if g.raw g.pos % 2 == 0 then upCode c else loCode c
    let (rest, g') := randCaseSt cs ⟨g.raw, g.pos + 1⟩
    (c' :: rest, g')

/-- The case transformation of `generate_string` in the state-threaded
model. -/
def applyCaseSt (case : CaseOpt) (value : List Nat) (g : PyRng) :
    List Nat × PyRng :=
  match case with
  | .noChange => (value, g)
  | .upper => (value.map upCode, g)
  | .lower => (value.map loCode, g)
  | .randomCase => randCaseSt value g

/-- The `generate_string` loop, drawing from the global module. -/
def genStringLoopSt (lowerLen upperLen charLo charHi : Int)
    (exclude : List (List Nat)) (total : Nat) (case : CaseOpt) :
    Nat → PyRng → List (List Nat) → Except PyError (List (List Nat) × PyRng)
  | 0, g, acc => .ok (acc, g)
  | fuel + 1, g, acc =>
    if acc.length < total then
      match randintSt lowerLen upperLen g with
      | .error e => .error e
      | .ok (len, g₁) =>
        match drawCharsSt charLo charHi len.toNat g₁ with
        | .error e => .error e
        | .ok (drawn, g₂) =>
          let (value, g₃) := applyCaseSt case drawn g₂
          if stringExcluded exclude value then
            genStringLoopSt lowerLen upperLen charLo charHi exclude total
              case fuel g₃ acc
          else if value ∈ acc then
            genStringLoopSt lowerLen upperLen charLo charHi exclude total
              case fuel g₃ acc
          else
            genStringLoopSt lowerLen upperLen charLo charHi exclude total
              case fuel g₃ (acc ++ [value])
    else .ok (acc, g)

/-- `TestCaseGenerator.generate_string`, drawing from the global
module. -/
def generateStringSt (lowerLen upperLen charLo charHi : Nat)
    (exclude : List (List Nat)) (case : CaseOpt) (totalTests : Nat)
    (g : PyRng) : Except PyError (List (List Nat) × PyRng) :=
  genStringLoopSt (Int.ofNat lowerLen) (Int.ofNat upperLen)
    (Int.ofNat charLo) (Int.ofNat charHi) exclude totalTests case
    (totalTests * 100) g []

/-! ### `src/test_cases.py` — composite generators
(`generate_array`, `generate_dict`) -/

/-- A `{"type": …}` generator configuration dict, as dispatched on by
`_generate_from_config`, `generate_array` and `generate_dict`. -/
inductive GenConfig where
  | num (lower upper : ℚ) (exclude : List Int)
  | strC (lowerLen upperLen charLo charHi : Nat) (exclude : List (List Nat))
      (case : CaseOpt)
  | boolOrNone (includeTrue includeFalse includeNone : Bool)
  | arr (elements : List GenConfig)
  | dictC (keys : List GenConfig) (values : List GenConfig)
  deriving Repr

/-- The key dispatch of `generate_dict` (src/test_cases.py
lines 165–173): `num`, `string` and `bool_or_none` generate one value
and index `[0]`; any other type tag falls to the `else` branch and
yields `None` without drawing. -/
def genKeyFromCfg (cfg : GenConfig) (g : PyRng) :
    Except PyError (PyVal × PyRng) :=
  match cfg with
  | .num lo hi ex =>
    match generateNumSt lo hi ex 1 g with
    | .error e => .error e
    | .ok ([], _) => .error .indexError
    | .ok (v :: _, g') => .ok (.intV v, g')
  | .strC ll ul cl ch ex case =>
    match generateStringSt ll ul cl ch ex case 1 g with
    | .error e => .error e
    | .ok ([], _) => .error .indexError
    | .ok (v :: _, g') => .ok (.strV v, g')
  | .boolOrNone t f n =>
    match genBoolSt t f n 1 g with
    | ([], _) => .error .indexError
    | (v :: _, g') => .ok (v, g')
  | .arr _ => .ok (.noneV, g)
  | .dictC _ _ => .ok (.noneV, g)

mutual

/-- One element/value generation of `generate_array` / `generate_dict`:
dispatch on the config type, generate with `total_tests=1`, and index
`[0]` — which raises `IndexError` when the single generation came back
empty. -/
def genValueFromCfg (cfg : GenConfig) (g : PyRng) :
    Except PyError (PyVal × PyRng) :=
  match cfg with
  | .num lo hi ex =>
    match generateNumSt lo hi ex 1 g with
    | .error e => .error e
    | .ok ([], _) => .error .indexError
    | .ok (v :: _, g') => .ok (.intV v, g')
  | .strC ll ul cl ch ex case =>
    match generateStringSt ll ul cl ch ex case 1 g with
    | .error e => .error e
    | .ok ([], _) => .error .indexError
    | .ok (v :: _, g') => .ok (.strV v, g')
  | .boolOrNone t f n =>
    match genBoolSt t f n 1 g with
    | ([], _) => .error .indexError
    | (v :: _, g') => .ok (v, g')
  | .arr els =>
    match genArrayN els 1 g with
    | .error e => .error e
    | .ok ([], _) => .error .indexError
    | .ok (v :: _, g') => .ok (v, g')
  | .dictC ks vs =>
    match genDictN ks vs 1 g with
    | .error e => .error e
    | .ok ([], _) => .error .indexError
    | .ok (v :: _, g') => .ok (v, g')
termination_by (sizeOf cfg, 0)

/-- The `for element_config in elements` loop of `generate_array`
(src/test_cases.py lines 124–143): one value per element config, in
order. -/
def genArrayRow (cfgs : List GenConfig) (g : PyRng) :
    Except PyError (List PyVal × PyRng) :=
  match cfgs with
  | [] => .ok ([], g)
  | c :: cs =>
    match genValueFromCfg c g with
    | .error e => .error e
    | .ok (v, g₁) =>
      match genArrayRow cs g₁ with
      | .error e => .error e
      | .ok (rest, g₂) => .ok (v :: rest, g₂)
termination_by (sizeOf cfgs, 0)

/-- `TestCaseGenerator.generate_array` (src/test_cases.py
lines 111–145): `total_tests` arrays, each with one value per element
config. -/
def genArrayN (els : List GenConfig) (total : Nat) (g : PyRng) :
    Except PyError (List PyVal × PyRng) :=
  match total with
  | 0 => .ok ([], g)
  | n + 1 =>
    match genArrayRow els g with
    | .error e => .error e
    | .ok (row, g₁) =>
      match genArrayN els n g₁ with
      | .error e => .error e
      | .ok (rest, g₂) => .ok (.listV row :: rest, g₂)
termination_by (sizeOf els, total + 1)

/-- The `for key_config, value_config in zip(keys, values)` loop of
`generate_dict` (src/test_cases.py lines 163–190): positional pairing
truncates to the shorter list; later keys overwrite earlier ones. -/
def genDictRow (ks vs : List GenConfig) (acc : List (PyVal × PyVal))
    (g : PyRng) : Except PyError (List (PyVal × PyVal) × PyRng) :=
  match ks, vs with
  | [], _ => .ok (acc, g)
  | _ :: _, [] => .ok (acc, g)
  | k :: ks', v :: vs' =>
    match genKeyFromCfg k g with
    | .error e => .error e
    | .ok (key, g₁) =>
      match genValueFromCfg v g₁ with
      | .error e => .error e
      | .ok (val, g₂) => genDictRow ks' vs' (dictInsert acc key val) g₂
termination_by (sizeOf ks + sizeOf vs, 0)

/-- `TestCaseGenerator.generate_dict` (src/test_cases.py
lines 147–194): `total_tests` dicts built by the pairing loop. -/
def genDictN (ks vs : List GenConfig) (total : Nat) (g : PyRng) :
    Except PyError (List PyVal × PyRng) :=
  match total with
  | 0 => .ok ([], g)
  | n + 1 =>
    match genDictRow ks vs [] g with
    | .error e => .error e
    | .ok (row, g₁) =>
      match genDictN ks vs n g₁ with
      | .error e => .error e
      | .ok (rest, g₂) => .ok (.dictV row :: rest, g₂)
termination_by (sizeOf ks + sizeOf vs, total + 1)

end

/-! ## Theorems -/

/-! ### C5 — `run_script` failure boundary -/

/-- C5 counterexample: the claim states that on any copy or teardown
failure `run_script` returns `success=false` with the raw diagnostic
attached.  In the code both auxiliary commands are run with
`capture_output=True` and their exit status is never inspected: here
the copy command and the cleanup command both fail (exit 1, diagnostic
on stderr), the guarded run itself exits 0, and `run_script` returns
`success=true` with empty stderr — the failures are silently ignored,
not reported. -/
theorem runScript_ignores_copy_teardown_failure :
    runScript 5 (CmdOutcome.finished ⟨1, "", "cp: cannot stat"⟩)
        (ExecAttempt.completed ⟨0, "out", ""⟩)
        (CmdOutcome.finished ⟨1, "", "rm: cannot remove"⟩) =
      Except.ok ⟨0, "out", "", true⟩ ∧
    ∀ r : RunResult,
      runScript 5 (CmdOutcome.finished ⟨1, "", "cp: cannot stat"⟩)
          (ExecAttempt.completed ⟨0, "out", ""⟩)
          (CmdOutcome.finished ⟨1, "", "rm: cannot remove"⟩) =
        Except.ok r → r.success = true := by
  have base : runScript 5 (CmdOutcome.finished ⟨1, "", "cp: cannot stat"⟩)
      (ExecAttempt.completed ⟨0, "out", ""⟩)
      (CmdOutcome.finished ⟨1, "", "rm: cannot remove"⟩) =
      Except.ok (⟨0, "out", "", true⟩ : RunResult) := rfl
  refine ⟨base, ?_⟩
  intro r h
  rw [base] at h
  injection h with h'
  rw [← h']

/-- C5, amended: within the `try`/`except`/`finally` boundary, a
timeout maps to the distinct `f"Timeout after {timeout}s"` outcome with
`returncode=-1` (never conflated with a completed crash, which keeps
the program's own returncode and stderr), and any exception raised by
the guarded execution is converted to `success=false` carrying its
text.  However, the copy command before the `try` and the cleanup in
the `finally` are outside the protection: an exception there escapes
`run_script`, and a nonzero exit of either command is ignored
entirely. -/
theorem runScript_boundary :
    (∀ (t : Nat) (c td : CompletedProcess),
      runScript t (.finished c) .timedOut (.finished td) =
        .ok ⟨-1, "", timeoutMsg t, false⟩) ∧
    (∀ (t : Nat) (c : CompletedProcess) (m : String) (td : CompletedProcess),
      runScript t (.finished c) (.raised m) (.finished td) =
        .ok ⟨-1, "", m, false⟩) ∧
    (∀ (t : Nat) (c r td : CompletedProcess),
      runScript t (.finished c) (.completed r) (.finished td) =
        .ok ⟨r.returncode, r.stdout, r.stderr, r.returncode == 0⟩) ∧
    (∀ (t : Nat) (m : String) (e : ExecAttempt) (td : CmdOutcome),
      runScript t (.raised m) e td = .error m) ∧
    (∀ (t : Nat) (c : CompletedProcess) (e : ExecAttempt) (m : String),
      runScript t (.finished c) e (.raised m) = .error m) ∧
    (∀ (t : Nat) (c r td : CompletedProcess), r.stderr ≠ timeoutMsg t →
      runScript t (.finished c) (.completed r) (.finished td) ≠
        runScript t (.finished c) .timedOut (.finished td)) := by
  refine ⟨fun _ _ _ => rfl, fun _ _ _ _ => rfl, fun _ _ _ _ => rfl,
    fun _ _ _ _ => rfl, fun _ _ e _ => by cases e <;> rfl, ?_⟩
  intro t c r td hne heq
  simp only [runScript, Except.ok.injEq, RunResult.mk.injEq] at heq
  exact hne heq.2.2.1

/-- Witness for `runScript_boundary`: at a concrete crash outcome whose
stderr differs from the timeout message, the two results differ. -/
theorem runScript_boundary_witness :
    runScript 5 (.finished ⟨0, "", ""⟩) (.completed ⟨1, "", "boom"⟩)
        (.finished ⟨0, "", ""⟩) ≠
      runScript 5 (.finished ⟨0, "", ""⟩) .timedOut (.finished ⟨0, "", ""⟩) :=
  runScript_boundary.2.2.2.2.2 5 ⟨0, "", ""⟩ ⟨1, "", "boom"⟩ ⟨0, "", ""⟩
    (by decide)

/-! ### C2 — `grade_submission` failure paths -/

/-- C2 counterexample: the claim states that when parsing the captured
stdout fails, `grade_submission` returns (without raising) an ungraded
report.  In the code `ast.literal_eval(result['stdout'].strip())` is
not guarded: its exception escapes `grade_submission`, and no
`GradeReport` is produced. -/
theorem gradeSubmission_parse_failure_raises :
    gradeSubmission (α := Int) ⟨0, "garbage", "", true⟩
        (.error "malformed node or string") (.ok []) =
      .error "malformed node or string" ∧
    ∀ r : GradeReport Int,
      gradeSubmission (α := Int) ⟨0, "garbage", "", true⟩
          (.error "malformed node or string") (.ok []) ≠ .ok r := by
  refine ⟨rfl, ?_⟩
  intro r h
  simp [gradeSubmission] at h

/-- C2, amended: when the isolated execution reports `success=false`,
`grade_submission` returns the ungraded report
`{"error": stderr, "passed": 0, "total": 0, "results": []}`; but when
the candidate run succeeded and its stdout fails to parse as a
`ResultRecord` sequence, the parse exception propagates out of
`grade_submission` instead of an ungraded report being returned. -/
theorem gradeSubmission_failure_paths {α : Type} [BEq α] :
    (∀ (run : RunResult) (ps pk : Except String (List (ResultRecord α))),
      run.success = false →
        gradeSubmission run ps pk = .ok ⟨0, 0, [], some run.stderr⟩) ∧
    (∀ (run : RunResult) (msg : String)
        (pk : Except String (List (ResultRecord α))),
      run.success = true →
        gradeSubmission run (.error msg) pk = .error msg) := by
  constructor
  · intro run ps pk h
    simp [gradeSubmission, h]
  · intro run msg pk h
    simp [gradeSubmission, h]

/-- Witness for `gradeSubmission_failure_paths`: a concrete failed run
is returned as an ungraded report carrying the sandbox diagnostic. -/
theorem gradeSubmission_failure_paths_witness :
    gradeSubmission (α := Int) ⟨-1, "", "Timeout after 5s", false⟩
        (.ok []) (.ok []) = .ok ⟨0, 0, [], some "Timeout after 5s"⟩ :=
  gradeSubmission_failure_paths.1 ⟨-1, "", "Timeout after 5s", false⟩
    (.ok []) (.ok []) rfl

/-! ### C1 — positional comparison and the reported total -/

/-- The `passed` counter of the comparison loop counts the matching
pairs. -/
theorem compareLoop_fst {α : Type} [BEq α] (i : Nat)
    (pairs : List (ResultRecord α × ResultRecord α)) :
    (compareLoop i pairs).1 = pairs.countP fun p => recMatch p.1 p.2 := by
  induction pairs generalizing i with
  | nil => simp [compareLoop]
  | cons hd tl ih =>
    simp only [compareLoop, List.countP_cons, ih]
    cases h : recMatch hd.1 hd.2 <;> simp [h, Nat.add_comm]

/-- The diagnostics list of the comparison loop has one entry per
pair. -/
theorem compareLoop_snd_length {α : Type} [BEq α] (i : Nat)
    (pairs : List (ResultRecord α × ResultRecord α)) :
    (compareLoop i pairs).2.length = pairs.length := by
  induction pairs generalizing i with
  | nil => simp [compareLoop]
  | cons hd tl ih => simp [compareLoop, ih]

/-- The `j`-th diagnostic records test number, match flag, and the
expected/actual return and heap fields of the `j`-th pair. -/
theorem compareLoop_snd_get {α : Type} [BEq α] (i : Nat)
    (pairs : List (ResultRecord α × ResultRecord α)) (j : Nat) :
    (compareLoop i pairs).2[j]? = pairs[j]?.map fun p =>
      ⟨i + j + 1, recMatch p.1 p.2, p.2.return_value, p.1.return_value,
        p.2.heap_param_values, p.1.heap_param_values⟩ := by
  induction pairs generalizing i j with
  | nil => simp [compareLoop]
  | cons hd tl ih =>
    cases j with
    | zero => simp [compareLoop]
    | succ j' =>
      simp only [compareLoop, List.getElem?_cons_succ, ih (i + 1) j']
      have : i + 1 + j' + 1 = i + (j' + 1) + 1 := by omega
      rw [this]

/-- C1 counterexample: the claim states that the reported `total`
equals the number of compared pairs, in particular the candidate
sequence's length when the candidate is shorter.  In the code
`total = len(expected_results)`: with a one-record candidate against a
two-record answer key, one pair is compared but `total = 2 ≠ 1`. -/
theorem gradeSubmission_total_counterexample :
    gradeSubmission (α := Int) ⟨0, "", "", true⟩
        (.ok [⟨0, []⟩]) (.ok [⟨0, []⟩, ⟨1, []⟩]) =
      .ok ⟨1, 2, [⟨1, true, 0, 0, [], []⟩], none⟩ ∧
    ∀ r : GradeReport Int,
      gradeSubmission (α := Int) ⟨0, "", "", true⟩
          (.ok [⟨0, []⟩]) (.ok [⟨0, []⟩, ⟨1, []⟩]) = .ok r →
        r.total = 2 ∧ r.results.length = 1 ∧ r.total ≠ r.results.length := by
  have base : gradeSubmission (α := Int) ⟨0, "", "", true⟩
      (.ok [⟨0, []⟩]) (.ok [⟨0, []⟩, ⟨1, []⟩]) =
      .ok ⟨1, 2, [⟨1, true, 0, 0, [], []⟩], none⟩ := rfl
  refine ⟨base, ?_⟩
  intro r h
  rw [base] at h
  injection h with h'
  rw [← h']
  refine ⟨rfl, rfl, by decide⟩

/-- C1, amended: on the graded path, records are paired by index and
truncated to the shorter sequence without any error; `passed` counts
the pairs whose `return_value` and `heap_param_values` are both equal
(dict equality, order-insensitive); the diagnostics carry the
expected/actual fields of every compared pair; but the reported
`total` is the answer key's length, not the compared-pair count. -/
theorem gradeSubmission_comparison {α : Type} [BEq α] (run : RunResult)
    (student expected : List (ResultRecord α)) (h : run.success = true) :
    ∃ r : GradeReport α,
      gradeSubmission run (.ok student) (.ok expected) = .ok r ∧
      r.error = none ∧
      r.total = expected.length ∧
      r.results.length = min student.length expected.length ∧
      r.passed = (student.zip expected).countP (fun p => recMatch p.1 p.2) ∧
      ∀ j : Nat, r.results[j]? = (student.zip expected)[j]?.map fun p =>
        ⟨j + 1, recMatch p.1 p.2, p.2.return_value, p.1.return_value,
          p.2.heap_param_values, p.1.heap_param_values⟩ := by
  refine ⟨⟨(compareLoop 0 (student.zip expected)).1, expected.length,
    (compareLoop 0 (student.zip expected)).2, none⟩, ?_, rfl, rfl, ?_, ?_, ?_⟩
  · simp [gradeSubmission, h]
  · simp [compareLoop_snd_length, List.length_zip]
  · simp [compareLoop_fst]
  · intro j
    have := compareLoop_snd_get (α := α) 0 (student.zip expected) j
    simpa using this

/-- Witness for `gradeSubmission_comparison` at a concrete graded
run. -/
theorem gradeSubmission_comparison_witness :
    ∃ r : GradeReport Int,
      gradeSubmission ⟨0, "", "", true⟩
          (.ok [⟨1, [("a", 2)]⟩, ⟨5, []⟩]) (.ok [⟨1, [("a", 2)]⟩, ⟨6, []⟩]) =
        .ok r ∧
      r.error = none ∧
      r.total = 2 ∧
      r.results.length = min 2 2 ∧
      r.passed = ([(⟨1, [("a", 2)]⟩, ⟨1, [("a", 2)]⟩),
          (⟨5, []⟩, ⟨6, []⟩)] : List (ResultRecord Int × ResultRecord Int)).countP
            (fun p => recMatch p.1 p.2) ∧
      ∀ j : Nat, r.results[j]? = (([(⟨1, [("a", 2)]⟩, ⟨1, [("a", 2)]⟩),
          (⟨5, []⟩, ⟨6, []⟩)] : List (ResultRecord Int × ResultRecord Int)))[j]?.map
            fun p => ⟨j + 1, recMatch p.1 p.2, p.2.return_value,
              p.1.return_value, p.2.heap_param_values, p.1.heap_param_values⟩ := by
  have := gradeSubmission_comparison (α := Int) ⟨0, "", "", true⟩
    [⟨1, [("a", 2)]⟩, ⟨5, []⟩] [⟨1, [("a", 2)]⟩, ⟨6, []⟩] rfl
  simpa using this

/-! ### C4 / C9 — call planning -/

/-- The initial accumulator bounds `foldl Nat.max` from below. -/
theorem init_le_foldl_max : ∀ (l : List Nat) (a : Nat),
    a ≤ l.foldl Nat.max a := by
  intro l
  induction l with
  | nil => intro a; exact Nat.le_refl a
  | cons hd tl ih =>
    intro a
    exact Nat.le_trans (Nat.le_max_left a hd) (ih (Nat.max a hd))

/-- Every member of a list bounds `foldl Nat.max` from below. -/
theorem le_foldl_max_of_mem : ∀ (l : List Nat) (a x : Nat), x ∈ l →
    x ≤ l.foldl Nat.max a := by
  intro l
  induction l with
  | nil => intro a x hx; cases hx
  | cons hd tl ih =>
    intro a x hx
    rcases List.mem_cons.mp hx with h | h
    · subst h
      exact Nat.le_trans (Nat.le_max_right a x) (init_le_foldl_max tl _)
    · exact ih (Nat.max a hd) x h

/-- `foldl Nat.max` returns the accumulator or a member. -/
theorem foldl_max_mem : ∀ (l : List Nat) (a : Nat),
    l.foldl Nat.max a = a ∨ l.foldl Nat.max a ∈ l := by
  intro l
  induction l with
  | nil => intro a; exact Or.inl rfl
  | cons hd tl ih =>
    intro a
    rcases ih (Nat.max a hd) with h | h
    · rw [List.foldl_cons, h]
      rcases Nat.le_total a hd with hle | hle
      · have hmax : Nat.max a hd = hd := Nat.max_eq_right hle
        exact Or.inr (by rw [hmax]; exact List.mem_cons_self hd tl)
      · have hmax : Nat.max a hd = a := Nat.max_eq_left hle
        exact Or.inl hmax
    · exact Or.inr (List.mem_cons_of_mem hd h)

/-- When every value list is non-empty, the inner loop succeeds and
produces the `repr`'d cyclic arguments in parameter order. -/
theorem buildArgs_ok {α : Type} [Inhabited α] (reprV : α → String)
    (track : List String) (i : Nat) :
    ∀ pv : List (String × List α), (∀ p ∈ pv, p.2 ≠ []) →
      ∃ tr, buildArgs reprV track i pv = .ok (pv.map (cyclicArg reprV i), tr) := by
  intro pv
  induction pv with
  | nil => intro _; exact ⟨[], rfl⟩
  | cons hd tl ih =>
    intro h
    obtain ⟨name, vals⟩ := hd
    have hhd : vals ≠ [] := h (name, vals) (List.mem_cons_self _ tl)
    have hlen : vals.length ≠ 0 := by
      intro h0; exact hhd (List.eq_nil_of_length_eq_zero h0)
    have hpos : 0 < vals.length := Nat.pos_of_ne_zero hlen
    obtain ⟨tr, htr⟩ := ih fun p hp => h p (List.mem_cons_of_mem _ hp)
    refine ⟨(if track.contains name
        then [(name, vals.getD (i % vals.length) default)] else []) ++ tr, ?_⟩
    have hmod : i % vals.length < vals.length := Nat.mod_lt _ hpos
    simp only [buildArgs]
    rw [dif_neg hlen, htr]
    simp [cyclicArg, List.getD_eq_getElem?_getD,
      List.getElem?_eq_getElem hmod, List.get_eq_getElem]

/-- When some value list is empty, the inner loop raises
`ZeroDivisionError` at the `i % len` indexing. -/
theorem buildArgs_err {α : Type} (reprV : α → String) (track : List String)
    (i : Nat) :
    ∀ pv : List (String × List α), (∃ p ∈ pv, p.2 = []) →
      buildArgs reprV track i pv = .error .zeroDivisionError := by
  intro pv
  induction pv with
  | nil => rintro ⟨p, hp, _⟩; cases hp
  | cons hd tl ih =>
    rintro ⟨p, hp, hempty⟩
    rcases List.mem_cons.mp hp with h | h
    · subst h
      obtain ⟨name, vals⟩ := p
      simp only at hempty
      subst hempty
      simp [buildArgs]
    · obtain ⟨name, vals⟩ := hd
      by_cases hv : vals.length = 0
      · simp [buildArgs, hv]
      · simp only [buildArgs, ih ⟨p, h, hempty⟩]
        split <;> rfl

/-- When every value list is non-empty, the outer loop succeeds and
produces one call line per iteration, cycling each parameter. -/
theorem planIter_ok {α : Type} [Inhabited α] (method : String)
    (reprV : α → String) (track : List String)
    (pv : List (String × List α)) (h : ∀ p ∈ pv, p.2 ≠ []) :
    ∀ (n i : Nat), ∃ md, planIter method reprV track pv i n =
      .ok ((List.range n).map fun k => method ++ "(" ++
        String.intercalate "," (pv.map (cyclicArg reprV (i + k))) ++ ")", md) := by
  intro n
  induction n with
  | zero => intro i; exact ⟨[], rfl⟩
  | succ n' ih =>
    intro i
    obtain ⟨tr, htr⟩ := buildArgs_ok reprV track i pv h
    obtain ⟨md, hmd⟩ := ih (i + 1)
    refine ⟨tr :: md, ?_⟩
    simp only [planIter, htr, hmd]
    have hhead : method ++ "(" ++
        String.intercalate "," (pv.map (cyclicArg reprV (i + 0))) ++ ")" =
        method ++ "(" ++
          String.intercalate "," (pv.map (cyclicArg reprV i)) ++ ")" := by
      rw [Nat.add_zero]
    have htail : List.map ((fun k => method ++ "(" ++
          String.intercalate "," (pv.map (cyclicArg reprV (i + k))) ++ ")") ∘
            Nat.succ) (List.range n') =
        List.map (fun k => method ++ "(" ++
          String.intercalate "," (pv.map (cyclicArg reprV (i + 1 + k))) ++ ")")
          (List.range n') := by
      apply List.map_congr_left
      intro k _
      simp only [Function.comp_apply]
      have harith : i + Nat.succ k = i + 1 + k := by omega
      rw [harith]
    rw [List.range_succ_eq_map, List.map_cons, List.map_map, hhead, htail]

/-- C4: with every candidate-value list non-empty, the planner emits
`max` calls (one if the spec has no parameters) with every list cycled
independently at `i % len`, arguments in declaration order; and the two
concrete scenarios of the claim.  The call at index `k` is the exact
line written to the test-calls file. -/
theorem generateTestCalls_plan :
    (∀ {α : Type} [Inhabited α] (method : String) (reprV : α → String)
        (pv : List (String × List α)) (track : List String),
      (∀ p ∈ pv, p.2 ≠ []) →
      ∃ calls md, generateTestCalls method reprV pv track = .ok (calls, md) ∧
        (pv = [] → calls.length = 1) ∧
        (∀ p ∈ pv, p.2.length ≤ calls.length) ∧
        (pv ≠ [] → ∃ p ∈ pv, p.2.length = calls.length) ∧
        ∀ k : Nat, k < calls.length →
          calls[k]? = some (method ++ "(" ++
            String.intercalate "," (pv.map (cyclicArg reprV k)) ++ ")")) ∧
    generateTestCalls "add" (fun n : Int => toString n)
        [("a", [1, 2]), ("b", [10])] [] =
      .ok (["add(1,10)", "add(2,10)"], [[], []]) ∧
    generateTestCalls "add" (fun n : Int => toString n)
        [("a", [10, 11, 12]), ("b", [0, 1, 2, 3, 4])] [] =
      .ok (["add(10,0)", "add(11,1)", "add(12,2)", "add(10,3)", "add(11,4)"],
        [[], [], [], [], []]) := by
  refine ⟨?_, by decide, by decide⟩
  intro α _ method reprV pv track h
  obtain ⟨md, hmd⟩ := planIter_ok method reprV track pv h
    (if pv.isEmpty then 1 else (pv.map fun p => p.2.length).foldl Nat.max 0) 0
  refine ⟨_, md, hmd, ?_, ?_, ?_, ?_⟩
  · intro hpv
    subst hpv
    simp
  · intro p hp
    simp only [List.length_map, List.length_range]
    have : pv.isEmpty = false := by
      cases pv with
      | nil => cases hp
      | cons hd tl => rfl
    rw [this]
    simp only [Bool.false_eq_true, if_neg, ite_false]
    exact le_foldl_max_of_mem _ 0 p.2.length
      (List.mem_map_of_mem (fun q => q.2.length) hp)
  · intro hpv
    have hne : pv.isEmpty = false := by
      cases pv with
      | nil => exact absurd rfl hpv
      | cons hd tl => rfl
    simp only [List.length_map, List.length_range, hne, Bool.false_eq_true,
      if_neg, ite_false]
    rcases foldl_max_mem (pv.map fun p => p.2.length) 0 with h0 | hmem
    · rw [h0]
      cases pv with
      | nil => exact absurd rfl hpv
      | cons hd tl =>
        have hhd : hd.2 ≠ [] := h hd (List.mem_cons_self hd tl)
        have : hd.2.length ≤ 0 := by
          rw [← h0]
          exact le_foldl_max_of_mem _ 0 hd.2.length
            (List.mem_map_of_mem (fun q => q.2.length) (List.mem_cons_self hd tl))
        have : hd.2.length = 0 := Nat.le_zero.mp this
        exact absurd (List.eq_nil_of_length_eq_zero this) hhd
    · obtain ⟨p, hp, hplen⟩ := List.mem_map.mp hmem
      exact ⟨p, hp, hplen⟩
  · intro k hk
    simp only [List.length_map, List.length_range] at hk
    simp [List.getElem?_map, List.getElem?_range hk]

/-- Witness for `generateTestCalls_plan`, instantiating the general
conjunct at a concrete one-parameter spec. -/
theorem generateTestCalls_plan_witness :
    ∃ calls md, generateTestCalls "mul" (fun n : Int => toString n)
        [("x", [7, 8])] ["x"] = .ok (calls, md) ∧
      (([("x", [7, 8])] : List (String × List Int)) = [] → calls.length = 1) ∧
      (∀ p ∈ ([("x", [7, 8])] : List (String × List Int)),
        p.2.length ≤ calls.length) ∧
      (([("x", [7, 8])] : List (String × List Int)) ≠ [] →
        ∃ p ∈ ([("x", [7, 8])] : List (String × List Int)),
          p.2.length = calls.length) ∧
      ∀ k : Nat, k < calls.length →
        calls[k]? = some ("mul" ++ "(" ++ String.intercalate ","
          (([("x", [7, 8])] : List (String × List Int)).map
            (cyclicArg (fun n : Int => toString n) k)) ++ ")") :=
  generateTestCalls_plan.1 "mul" (fun n : Int => toString n)
    [("x", [7, 8])] ["x"] (by decide)

/-- C9: a spec mixing an empty candidate-value list with a non-empty
one makes `generate_test_calls` raise `ZeroDivisionError` at the
`i % len(param_values[name])` indexing instead of returning calls or a
structured error. -/
theorem generateTestCalls_empty_param_raises {α : Type} (method : String)
    (reprV : α → String) (track : List String)
    (pv : List (String × List α)) (h1 : ∃ p ∈ pv, p.2 = [])
    (h2 : ∃ p ∈ pv, p.2 ≠ []) :
    generateTestCalls method reprV pv track = .error .zeroDivisionError := by
  obtain ⟨q, hq, hqne⟩ := h2
  have hne : pv.isEmpty = false := by
    cases pv with
    | nil => cases hq
    | cons hd tl => rfl
  have hqlen : 1 ≤ q.2.length := by
    cases hql : q.2.length with
    | zero => exact absurd (List.eq_nil_of_length_eq_zero hql) hqne
    | succ n => exact Nat.succ_le_succ (Nat.zero_le n)
  have hmax : 1 ≤ (pv.map fun p => p.2.length).foldl Nat.max 0 :=
    Nat.le_trans hqlen (le_foldl_max_of_mem _ 0 q.2.length
      (List.mem_map_of_mem (fun p => p.2.length) hq))
  obtain ⟨n, hn⟩ := Nat.exists_eq_add_of_le hmax
  have hn' : (pv.map fun p => p.2.length).foldl Nat.max 0 = n + 1 := by omega
  unfold generateTestCalls
  rw [hne]
  simp only [Bool.false_eq_true, if_neg, ite_false]
  rw [hn']
  simp [planIter, buildArgs_err reprV track 0 pv h1]

/-- Witness for `generateTestCalls_empty_param_raises` at a concrete
spec with parameters `a = [1]` and `b = []`. -/
theorem generateTestCalls_empty_param_raises_witness :
    generateTestCalls "f" (fun n : Int => toString n)
        [("a", [1]), ("b", [])] [] = .error .zeroDivisionError :=
  generateTestCalls_empty_param_raises "f" (fun n : Int => toString n) []
    [("a", [1]), ("b", [])] (by decide) (by decide)

/-! ### C3 — harness synthesis -/

/-- The interleaved assignment/rewrite loop equals the fold of
first-occurrence replacements with the assignments appended in tracked
order. -/
theorem writeCallBlock_eq :
    ∀ (tracked : List (String × String)) (line : String)
      (acc : List HarnessStmt),
      writeCallBlock tracked line acc =
        (tracked.foldl (fun l pr => replaceFirstS l pr.2 ("_" ++ pr.1)) line,
          acc ++ tracked.map fun pr => .assign ("_" ++ pr.1) pr.2) := by
  intro tracked
  induction tracked with
  | nil => intro line acc; simp [writeCallBlock]
  | cons hd tl ih =>
    intro line acc
    obtain ⟨p, r⟩ := hd
    simp [writeCallBlock, ih]

/-- A successful prefix test decomposes the list. -/
theorem hasPrefixL_append : ∀ (old s : List Char),
    hasPrefixL old s = true → s = old ++ s.drop old.length := by
  intro old
  induction old with
  | nil => intro s _; simp
  | cons a as ih =>
    intro s hp
    cases s with
    | nil => simp [hasPrefixL] at hp
    | cons b bs =>
      simp only [hasPrefixL, Bool.and_eq_true, beq_iff_eq] at hp
      obtain ⟨hab, htail⟩ := hp
      subst hab
      simpa using ih bs htail

/-- A replacement with no occurrence leaves the line unchanged
(`str.replace(old, new, 1)` replaces only occurrences). -/
theorem replaceFirstL_of_not_contains :
    ∀ (old new s : List Char), containsSub old s = false →
      replaceFirstL old new s = s := by
  intro old new s
  induction s with
  | nil =>
    intro hc
    simp only [containsSub] at hc
    have : old.isEmpty = false := by
      cases old with
      | nil => simp [hasPrefixL] at hc
      | cons a as => rfl
    simp [replaceFirstL, this]
  | cons c rest ih =>
    intro hc
    simp only [containsSub, Bool.or_eq_false_iff] at hc
    obtain ⟨h1, h2⟩ := hc
    simp [replaceFirstL, h1, ih h2]

/-- The replacement rewrites exactly the leftmost occurrence: the line
splits as `pre ++ old ++ suf` where no occurrence starts inside `pre`,
and the result is `pre ++ new ++ suf`. -/
theorem replaceFirstL_first_occurrence :
    ∀ (old new s : List Char), old ≠ [] → containsSub old s = true →
      ∃ pre suf, s = pre ++ old ++ suf ∧
        replaceFirstL old new s = pre ++ new ++ suf ∧
        ∀ q < pre.length, hasPrefixL old (s.drop q) = false := by
  intro old new s hne
  induction s with
  | nil =>
    intro hc
    simp only [containsSub] at hc
    cases old with
    | nil => exact absurd rfl hne
    | cons a as => simp [hasPrefixL] at hc
  | cons c rest ih =>
    intro hc
    by_cases hp : hasPrefixL old (c :: rest) = true
    · refine ⟨[], (c :: rest).drop old.length, ?_, ?_, ?_⟩
      · simpa using hasPrefixL_append old (c :: rest) hp
      · simp [replaceFirstL, hp]
      · intro q hq; cases hq
    · have hp' : hasPrefixL old (c :: rest) = false :=
        Bool.not_eq_true _ ▸ Bool.of_not_eq_true hp
      have hrest : containsSub old rest = true := by
        simp only [containsSub, Bool.or_eq_true] at hc
        rcases hc with h | h
        · exact absurd h hp
        · exact h
      obtain ⟨pre', suf', h1, h2, h3⟩ := ih hrest
      refine ⟨c :: pre', suf', by simp [h1], ?_, ?_⟩
      · simp [replaceFirstL, hp', h2]
      · intro q hq
        cases q with
        | zero => simpa using hp'
        | succ q' =>
          simp only [List.length_cons, Nat.succ_lt_succ_iff] at hq
          simpa using h3 q' hq

/-- Each per-call block contains exactly one record append. -/
theorem emitCall_countP_isAppend (p : String × List (String × String)) :
    (emitCall p).countP isAppend = 1 := by
  by_cases h : p.2.isEmpty
  · simp [emitCall, h, isAppend]
  · simp only [emitCall, h, ite_false, Bool.false_eq_true]
    rw [List.countP_append, List.countP_map]
    simp [isAppend, Function.comp_def, List.countP_cons]

/-- No per-call block contains a print statement. -/
theorem emitCall_countP_isPrint (p : String × List (String × String)) :
    (emitCall p).countP isPrint = 0 := by
  by_cases h : p.2.isEmpty
  · simp [emitCall, h, isPrint]
  · simp only [emitCall, h, ite_false, Bool.false_eq_true]
    rw [List.countP_append, List.countP_map]
    simp [isPrint, Function.comp_def, List.countP_cons]

/-- The flattened call blocks contain one append per call. -/
theorem flatMap_emitCall_countP_isAppend :
    ∀ ps : List (String × List (String × String)),
      ((ps.flatMap emitCall).countP isAppend) = ps.length := by
  intro ps
  induction ps with
  | nil => rfl
  | cons hd tl ih =>
    simp [List.flatMap_cons, List.countP_append, emitCall_countP_isAppend, ih,
      Nat.add_comm]

/-- The flattened call blocks contain no print. -/
theorem flatMap_emitCall_countP_isPrint :
    ∀ ps : List (String × List (String × String)),
      ((ps.flatMap emitCall).countP isPrint) = 0 := by
  intro ps
  induction ps with
  | nil => rfl
  | cons hd tl ih =>
    simp [List.flatMap_cons, List.countP_append, emitCall_countP_isPrint, ih]

/-- The enumerate loop equals the flattening of per-call blocks over
the calls zipped with their metadata. -/
theorem writeTestExecutionGo_eq (metadata : List (List (String × String))) :
    ∀ (lines : List String) (idx : Nat),
      idx + lines.length ≤ metadata.length →
      writeTestExecutionGo metadata lines idx =
        (lines.zip (metadata.drop idx)).flatMap emitCall := by
  intro lines
  induction lines with
  | nil => intro idx _; simp [writeTestExecutionGo]
  | cons line rest ih =>
    intro idx hle
    have hidx : idx < metadata.length := by
      simp only [List.length_cons] at hle
      omega
    have hdrop : metadata.drop idx = metadata[idx] :: metadata.drop (idx + 1) :=
      List.drop_eq_getElem_cons hidx
    have hrest : writeTestExecutionGo metadata rest (idx + 1) =
        (rest.zip (metadata.drop (idx + 1))).flatMap emitCall := by
      apply ih
      simp only [List.length_cons] at hle
      omega
    rw [hdrop, List.zip_cons_cons, List.flatMap_cons, ← hrest]
    simp only [writeTestExecutionGo, hidx, dif_pos]
    by_cases hmt : metadata[idx].isEmpty
    · have : (metadata.get ⟨idx, hidx⟩).isEmpty = true := by
        simpa [List.get_eq_getElem] using hmt
      simp [this, emitCall, hmt, List.get_eq_getElem]
    · have hmt' : (metadata.get ⟨idx, hidx⟩).isEmpty = false := by
        simp only [List.get_eq_getElem]
        exact Bool.not_eq_true _ ▸ Bool.of_not_eq_true hmt
      rw [writeCallBlock_eq]
      simp [hmt', emitCall, List.get_eq_getElem,
        Bool.not_eq_true _ ▸ Bool.of_not_eq_true hmt]

/-- C3: the synthesized program is the verbatim source, `_results = []`,
then — per call, in order — the per-call block `emitCall` (a call with
tracked parameters gets each tracked value bound to its dedicated name
`_p` *before* the invocation, with the call expression rewritten by
replacing the first textual occurrence of each value's serialized form
by the bound name, and its record reads the post-call values through
the bound names; a call without tracked parameters gets a record with
the empty mapping), and a single final `print(_results)`: exactly one
record append per call, exactly one print, and the replacement
primitive rewrites precisely the leftmost occurrence. -/
theorem write_test_execution_structure (source : String)
    (lines : List String) (metadata : List (List (String × String)))
    (h : lines.length ≤ metadata.length) :
    buildHarness source lines metadata =
      .sourceText source :: .initResults ::
        ((lines.zip metadata).flatMap emitCall ++ [.printResults]) ∧
    (writeTestExecution lines metadata).countP isAppend = lines.length ∧
    (writeTestExecution lines metadata).countP isPrint = 1 ∧
    (∀ old new s : List Char, containsSub old s = false →
      replaceFirstL old new s = s) ∧
    (∀ old new s : List Char, old ≠ [] → containsSub old s = true →
      ∃ pre suf, s = pre ++ old ++ suf ∧
        replaceFirstL old new s = pre ++ new ++ suf ∧
        ∀ q < pre.length, hasPrefixL old (s.drop q) = false) := by
  have hgo := writeTestExecutionGo_eq metadata lines 0 (by omega)
  have hzip : (lines.zip (metadata.drop 0)) = lines.zip metadata := by
    rw [List.drop_zero]
  rw [hzip] at hgo
  have hmain : writeTestExecution lines metadata =
      .initResults :: ((lines.zip metadata).flatMap emitCall ++
        [.printResults]) := by
    rw [writeTestExecution, hgo]
    rfl
  refine ⟨?_, ?_, ?_, replaceFirstL_of_not_contains,
    replaceFirstL_first_occurrence⟩
  · rw [buildHarness, hmain]
  · rw [hmain]
    simp only [List.countP_cons, List.countP_append,
      flatMap_emitCall_countP_isAppend, isAppend]
    have hlen : (lines.zip metadata).length = lines.length := by
      rw [List.length_zip]
      omega
    simp [hlen]
  · rw [hmain]
    simp [List.countP_cons, List.countP_append,
      flatMap_emitCall_countP_isPrint, isPrint]

/-- Witness for `write_test_execution_structure`: the harness for one
plain call and one call tracking `arr = [1, 2]`. -/
theorem write_test_execution_structure_witness :
    buildHarness "def f(x): pass" ["f(1)", "g([1, 2])"]
        [[], [("arr", "[1, 2]")]] =
      .sourceText "def f(x): pass" :: .initResults ::
        (((["f(1)", "g([1, 2])"].zip [[], [("arr", "[1, 2]")]]).flatMap
          emitCall) ++ [.printResults]) :=
  (write_test_execution_structure "def f(x): pass" ["f(1)", "g([1, 2])"]
    [[], [("arr", "[1, 2]")]] (by decide)).1

/-! ### C6 — `generate_num` -/

/-- Loop invariant of `genNumLoop`: starting from a duplicate-free
accumulator, the results stay duplicate-free, every produced value
either was already accumulated or satisfies the draw property and is
not excluded, the attempts counter grows by at most the fuel, and the
result count never exceeds the request. -/
theorem genNumLoop_spec (exclude : List Int) (total : Nat)
    (draws : Nat → Int) (P : Int → Prop) (hdraw : ∀ n, P (draws n)) :
    ∀ (fuel attempt : Nat) (acc : List Int), acc.Nodup →
      (genNumLoop exclude total draws fuel attempt acc).1.Nodup ∧
      (∀ v ∈ (genNumLoop exclude total draws fuel attempt acc).1,
        v ∈ acc ∨ (P v ∧ v ∉ exclude)) ∧
      (genNumLoop exclude total draws fuel attempt acc).2 ≤ attempt + fuel ∧
      (acc.length ≤ total →
        (genNumLoop exclude total draws fuel attempt acc).1.length ≤ total) := by
  intro fuel
  induction fuel with
  | zero =>
    intro attempt acc hnd
    exact ⟨hnd, fun v hv => Or.inl hv, Nat.le_refl _, fun hlen => hlen⟩
  | succ fuel' ih =>
    intro attempt acc hnd
    by_cases hlt : acc.length < total
    · by_cases hrej : draws attempt ∈ exclude ∨ draws attempt ∈ acc
      · have hstep : genNumLoop exclude total draws (fuel' + 1) attempt acc =
            genNumLoop exclude total draws fuel' (attempt + 1) acc := by
          simp only [genNumLoop, if_pos hlt, if_pos hrej]
        rw [hstep]
        obtain ⟨ha, hb, hc, hd⟩ := ih (attempt + 1) acc hnd
        exact ⟨ha, hb, by omega, hd⟩
      · have hstep : genNumLoop exclude total draws (fuel' + 1) attempt acc =
            genNumLoop exclude total draws fuel' (attempt + 1)
              (acc ++ [draws attempt]) := by
          simp only [genNumLoop, if_pos hlt, if_neg hrej]
        push_neg at hrej
        obtain ⟨hex, hacc⟩ := hrej
        have hnd' : (acc ++ [draws attempt]).Nodup := by
          simp [List.nodup_append, hnd, hacc]
        rw [hstep]
        obtain ⟨ha, hb, hc, hd⟩ := ih (attempt + 1) (acc ++ [draws attempt]) hnd'
        refine ⟨ha, ?_, by omega, ?_⟩
        · intro v hv
          rcases hb v hv with hin | hgood
          · rcases List.mem_append.mp hin with hmem | hmem
            · exact Or.inl hmem
            · have : v = draws attempt := by simpa using hmem
              subst this
              exact Or.inr ⟨hdraw attempt, hex⟩
          · exact Or.inr hgood
        · intro _
          apply hd
          rw [List.length_append, List.length_singleton]
          omega
    · have hstep : genNumLoop exclude total draws (fuel' + 1) attempt acc =
          (acc, attempt) := by
        simp only [genNumLoop, if_neg hlt]
      rw [hstep]
      exact ⟨hnd, fun v hv => Or.inl hv, by omega, fun hlen => hlen⟩

/-- C6, amended: for integer generation (`decimal=None`), under
`randint`'s contract on the draws — whose bounds are
`int(lower), int(upper)`, i.e. the *truncated* configured bounds —
every returned value lies in `[int(lower), int(upper)]` and outside the
exclude list, the values are pairwise distinct, at most
`100 × total_tests` attempts are made, and when the feasible unique
space is smaller than requested, fewer values are returned (no
failure). -/
theorem generate_num_integer_contract (lower upper : ℚ) (exclude : List Int)
    (total : Nat) (draws : Nat → Int)
    (hdraw : ∀ n, pyInt lower ≤ draws n ∧ draws n ≤ pyInt upper) :
    (∀ v ∈ (generateNum lower upper exclude total draws).1,
      pyInt lower ≤ v ∧ v ≤ pyInt upper ∧ v ∉ exclude) ∧
    (generateNum lower upper exclude total draws).1.Nodup ∧
    (generateNum lower upper exclude total draws).2 ≤ total * 100 ∧
    (generateNum lower upper exclude total draws).1.length ≤ total ∧
    (generateNum lower upper exclude total draws).1.length ≤
      ((Finset.Icc (pyInt lower) (pyInt upper)).filter
        fun v => v ∉ exclude).card ∧
    (((Finset.Icc (pyInt lower) (pyInt upper)).filter
        fun v => v ∉ exclude).card < total →
      (generateNum lower upper exclude total draws).1.length < total) := by
  have key : generateNum lower upper exclude total draws =
      genNumLoop exclude total draws (total * 100) 0 [] := rfl
  simp only [key]
  have hspec := genNumLoop_spec exclude total draws
    (fun v => pyInt lower ≤ v ∧ v ≤ pyInt upper) hdraw
    (total * 100) 0 [] List.nodup_nil
  obtain ⟨hnd, hmem, hatt, hlen⟩ := hspec
  have hmem' : ∀ v ∈ (genNumLoop exclude total draws (total * 100) 0 []).1,
      pyInt lower ≤ v ∧ v ≤ pyInt upper ∧ v ∉ exclude := by
    intro v hv
    rcases hmem v hv with hin | ⟨⟨h1, h2⟩, h3⟩
    · cases hin
    · exact ⟨h1, h2, h3⟩
  have hsub : (genNumLoop exclude total draws (total * 100) 0 []).1.toFinset ⊆
      (Finset.Icc (pyInt lower) (pyInt upper)).filter fun v => v ∉ exclude := by
    intro v hv
    have hv' := List.mem_toFinset.mp hv
    obtain ⟨h1, h2, h3⟩ := hmem' v hv'
    rw [Finset.mem_filter, Finset.mem_Icc]
    exact ⟨⟨h1, h2⟩, h3⟩
  have hcard : (genNumLoop exclude total draws (total * 100) 0 []).1.length ≤
      ((Finset.Icc (pyInt lower) (pyInt upper)).filter
        fun v => v ∉ exclude).card := by
    rw [← List.toFinset_card_of_nodup hnd]
    exact Finset.card_le_card hsub
  refine ⟨hmem', hnd, by simpa using hatt, hlen (Nat.zero_le total),
    hcard, fun hsmall => Nat.lt_of_le_of_lt hcard hsmall⟩

/-- C6 counterexample: the claim asserts every returned value lies in
`[lower, upper]`.  `generate_num` draws
`random.randint(int(lower), int(upper))`, truncating fractional bounds:
for `lower = 3/2, upper = 7/2` the draw `1` is legitimate
(`int(3/2) = 1`) and is returned, yet `1 < 3/2 = lower`. -/
theorem generateNum_fractional_bound_counterexample :
    (∀ n : Nat, pyInt (mkRat 3 2) ≤ (fun _ : Nat => (1 : Int)) n ∧
      (fun _ : Nat => (1 : Int)) n ≤ pyInt (mkRat 7 2)) ∧
    (generateNum (mkRat 3 2) (mkRat 7 2) [] 1 (fun _ => 1)).1 = [1] ∧
    ¬ (mkRat 3 2 ≤ ((1 : Int) : ℚ)) := by
  refine ⟨?_, by decide, by decide⟩
  intro n
  show pyInt (mkRat 3 2) ≤ 1 ∧ (1 : Int) ≤ pyInt (mkRat 7 2)
  exact ⟨by decide, by decide⟩

/-- Witness for `generate_num_integer_contract` with draws
`n % 11 ∈ [0, 10]` and `3` excluded. -/
theorem generate_num_integer_contract_witness :
    (∀ v ∈ (generateNum 0 10 [3] 4 (fun n => (n : Int) % 11)).1,
      pyInt 0 ≤ v ∧ v ≤ pyInt 10 ∧ v ∉ [3]) ∧
    (generateNum 0 10 [3] 4 (fun n => (n : Int) % 11)).1.Nodup ∧
    (generateNum 0 10 [3] 4 (fun n => (n : Int) % 11)).2 ≤ 4 * 100 ∧
    (generateNum 0 10 [3] 4 (fun n => (n : Int) % 11)).1.length ≤ 4 ∧
    (generateNum 0 10 [3] 4 (fun n => (n : Int) % 11)).1.length ≤
      ((Finset.Icc (pyInt 0) (pyInt 10)).filter fun v => v ∉ [3]).card ∧
    (((Finset.Icc (pyInt 0) (pyInt 10)).filter fun v => v ∉ [3]).card < 4 →
      (generateNum 0 10 [3] 4 (fun n => (n : Int) % 11)).1.length < 4) :=
  generate_num_integer_contract 0 10 [3] 4 (fun n => (n : Int) % 11)
    (fun n => by
      show pyInt 0 ≤ (n : Int) % 11 ∧ (n : Int) % 11 ≤ pyInt 10
      rw [(by decide : pyInt (0 : ℚ) = 0), (by decide : pyInt (10 : ℚ) = 10)]
      omega)

/-! ### C7 — `generate_string` -/

/-- The case transformation preserves the drawn length. -/
theorem applyCase_length (case : CaseOpt) (coin : Nat → Bool)
    (value : List Nat) : (applyCase case coin value).length = value.length := by
  cases case <;> simp [applyCase]

/-- Every character of the transformed value is the image of a drawn
character under the identity, upper-case, or lower-case map. -/
theorem applyCase_mem (case : CaseOpt) (coin : Nat → Bool)
    (value : List Nat) :
    ∀ c ∈ applyCase case coin value, ∃ c₀ ∈ value,
      c = c₀ ∨ c = upCode c₀ ∨ c = loCode c₀ := by
  intro c hc
  cases case with
  | noChange => exact ⟨c, hc, Or.inl rfl⟩
  | upper =>
    obtain ⟨c₀, hc₀, hmap⟩ := List.mem_map.mp hc
    exact ⟨c₀, hc₀, Or.inr (Or.inl hmap.symm)⟩
  | lower =>
    obtain ⟨c₀, hc₀, hmap⟩ := List.mem_map.mp hc
    exact ⟨c₀, hc₀, Or.inr (Or.inr hmap.symm)⟩
  | randomCase =>
    simp only [applyCase] at hc
    obtain ⟨⟨c₀, i⟩, hpair, hmap⟩ := List.mem_map.mp hc
    have hc₀ : c₀ ∈ value := (List.of_mem_zip hpair).1
    by_cases hcoin : coin i
    · exact ⟨c₀, hc₀, Or.inr (Or.inl (by simpa [hcoin] using hmap.symm))⟩
    · exact ⟨c₀, hc₀, Or.inr (Or.inr (by simpa [hcoin] using hmap.symm))⟩

/-- Loop invariant of `genStringLoop`: every produced value was
accumulated or satisfies the attempt property and passes the exclusion
test; the attempts counter grows by at most the fuel; the result count
never exceeds the request. -/
theorem genStringLoop_spec (exclude : List (List Nat)) (total : Nat)
    (case : CaseOpt) (lenDraw : Nat → Nat) (charDraw : Nat → Nat → Nat)
    (coin : Nat → Nat → Bool) (P : List Nat → Prop)
    (hdraw : ∀ a, P (drawString case lenDraw charDraw coin a)) :
    ∀ (fuel attempt : Nat) (acc : List (List Nat)),
      (∀ v ∈ (genStringLoop exclude total case lenDraw charDraw coin fuel
          attempt acc).1,
        v ∈ acc ∨ (P v ∧ stringExcluded exclude v = false)) ∧
      (genStringLoop exclude total case lenDraw charDraw coin fuel
        attempt acc).2 ≤ attempt + fuel ∧
      (acc.length ≤ total →
        (genStringLoop exclude total case lenDraw charDraw coin fuel
          attempt acc).1.length ≤ total) := by
  intro fuel
  induction fuel with
  | zero =>
    intro attempt acc
    exact ⟨fun v hv => Or.inl hv, Nat.le_refl _, fun hlen => hlen⟩
  | succ fuel' ih =>
    intro attempt acc
    by_cases hlt : acc.length < total
    · by_cases hexc : stringExcluded exclude
          (drawString case lenDraw charDraw coin attempt) = true
      · have hstep : genStringLoop exclude total case lenDraw charDraw coin
            (fuel' + 1) attempt acc =
            genStringLoop exclude total case lenDraw charDraw coin fuel'
              (attempt + 1) acc := by
          simp only [genStringLoop, if_pos hlt, hexc, if_pos]
        rw [hstep]
        obtain ⟨ha, hb, hc⟩ := ih (attempt + 1) acc
        exact ⟨ha, by omega, hc⟩
      · have hexc' : stringExcluded exclude
            (drawString case lenDraw charDraw coin attempt) = false :=
          Bool.not_eq_true _ ▸ Bool.of_not_eq_true hexc
        by_cases hmem : drawString case lenDraw charDraw coin attempt ∈ acc
        · have hstep : genStringLoop exclude total case lenDraw charDraw coin
              (fuel' + 1) attempt acc =
              genStringLoop exclude total case lenDraw charDraw coin fuel'
                (attempt + 1) acc := by
            simp only [genStringLoop, if_pos hlt, hexc', if_pos hmem,
              Bool.false_eq_true, ite_false]
          rw [hstep]
          obtain ⟨ha, hb, hc⟩ := ih (attempt + 1) acc
          exact ⟨ha, by omega, hc⟩
        · have hstep : genStringLoop exclude total case lenDraw charDraw coin
              (fuel' + 1) attempt acc =
              genStringLoop exclude total case lenDraw charDraw coin fuel'
                (attempt + 1)
                (acc ++ [drawString case lenDraw charDraw coin attempt]) := by
            simp only [genStringLoop, if_pos hlt, hexc', if_neg hmem,
              Bool.false_eq_true, ite_false]
          rw [hstep]
          obtain ⟨ha, hb, hc⟩ :=
            ih (attempt + 1) (acc ++ [drawString case lenDraw charDraw coin attempt])
          refine ⟨?_, by omega, ?_⟩
          · intro v hv
            rcases ha v hv with hin | hgood
            · rcases List.mem_append.mp hin with hm | hm
              · exact Or.inl hm
              · have : v = drawString case lenDraw charDraw coin attempt := by
                  simpa using hm
                subst this
                exact Or.inr ⟨hdraw attempt, hexc'⟩
            · exact Or.inr hgood
          · intro _
            apply hc
            rw [List.length_append, List.length_singleton]
            omega
    · have hstep : genStringLoop exclude total case lenDraw charDraw coin
          (fuel' + 1) attempt acc = (acc, attempt) := by
        simp only [genStringLoop, if_neg hlt]
      rw [hstep]
      exact ⟨fun v hv => Or.inl hv, by omega, fun hlen => hlen⟩

/-- C7, amended: under `randint`'s contracts on the length and
character draws, every returned string has length in
`[lower_len, upper_len]`; when no case transform is configured every
character code lies in `char_range`, and in general every character is
the upper- or lower-case image of an in-range code (the transform,
applied *after* drawing, may itself leave `char_range`); no returned value
equals or contains an excluded substring; at most `100 × total_tests`
attempts are made and at most `total_tests` values returned. -/
theorem generate_string_contract (lowerLen upperLen charLo charHi : Nat)
    (exclude : List (List Nat)) (case : CaseOpt) (total : Nat)
    (lenDraw : Nat → Nat) (charDraw : Nat → Nat → Nat)
    (coin : Nat → Nat → Bool)
    (hlen : ∀ a, lowerLen ≤ lenDraw a ∧ lenDraw a ≤ upperLen)
    (hchar : ∀ a i, charLo ≤ charDraw a i ∧ charDraw a i ≤ charHi) :
    (∀ v ∈ (generateString lowerLen upperLen charLo charHi exclude case total
        lenDraw charDraw coin).1,
      (lowerLen ≤ v.length ∧ v.length ≤ upperLen) ∧
      (∀ c ∈ v, ∃ c₀, (charLo ≤ c₀ ∧ c₀ ≤ charHi) ∧
        (c = c₀ ∨ c = upCode c₀ ∨ c = loCode c₀)) ∧
      (case = .noChange → ∀ c ∈ v, charLo ≤ c ∧ c ≤ charHi) ∧
      v ∉ exclude ∧ (∀ e ∈ exclude, containsSub e v = false)) ∧
    (generateString lowerLen upperLen charLo charHi exclude case total
      lenDraw charDraw coin).2 ≤ total * 100 ∧
    (generateString lowerLen upperLen charLo charHi exclude case total
      lenDraw charDraw coin).1.length ≤ total := by
  have key : generateString lowerLen upperLen charLo charHi exclude case total
      lenDraw charDraw coin =
      genStringLoop exclude total case lenDraw charDraw coin (total * 100)
        0 [] := rfl
  simp only [key]
  have hdraw : ∀ a,
      (lowerLen ≤ (drawString case lenDraw charDraw coin a).length ∧
        (drawString case lenDraw charDraw coin a).length ≤ upperLen) ∧
      (∀ c ∈ drawString case lenDraw charDraw coin a, ∃ c₀,
        (charLo ≤ c₀ ∧ c₀ ≤ charHi) ∧
        (c = c₀ ∨ c = upCode c₀ ∨ c = loCode c₀)) ∧
      (case = .noChange → ∀ c ∈ drawString case lenDraw charDraw coin a,
        charLo ≤ c ∧ c ≤ charHi) := by
    intro a
    have hlength : (drawString case lenDraw charDraw coin a).length =
        lenDraw a := by
      rw [drawString, applyCase_length]
      simp
    refine ⟨by rw [hlength]; exact hlen a, ?_, ?_⟩
    · intro c hc
      obtain ⟨c₀, hc₀, hform⟩ := applyCase_mem case (coin a) _ c hc
      obtain ⟨i, _, hdrawc⟩ := List.mem_map.mp hc₀
      exact ⟨c₀, by rw [← hdrawc]; exact hchar a i, hform⟩
    · intro hcase c hc
      subst hcase
      simp only [drawString, applyCase] at hc
      obtain ⟨i, _, hdrawc⟩ := List.mem_map.mp hc
      rw [← hdrawc]
      exact hchar a i
  obtain ⟨ha, hb, hc⟩ := genStringLoop_spec exclude total case lenDraw
    charDraw coin
    (fun v => (lowerLen ≤ v.length ∧ v.length ≤ upperLen) ∧
      (∀ c ∈ v, ∃ c₀, (charLo ≤ c₀ ∧ c₀ ≤ charHi) ∧
        (c = c₀ ∨ c = upCode c₀ ∨ c = loCode c₀)) ∧
      (case = .noChange → ∀ c ∈ v, charLo ≤ c ∧ c ≤ charHi))
    hdraw (total * 100) 0 []
  refine ⟨?_, by simpa using hb, hc (Nat.zero_le total)⟩
  intro v hv
  rcases ha v hv with hin | ⟨⟨h1, h2, h3⟩, hexc⟩
  · cases hin
  · simp only [stringExcluded, Bool.or_eq_false_iff, List.any_eq_false] at hexc
    obtain ⟨hcont, hsub⟩ := hexc
    refine ⟨h1, h2, h3, ?_, ?_⟩
    · intro hmem
      have htrue : exclude.contains v = true := List.elem_iff.mpr hmem
      rw [htrue] at hcont
      cases hcont
    · intro e he
      simpa using hsub e he

/-- C7 counterexample: the claim asserts every character code of every
returned string lies within `char_range` *including after the case
transform*.  With `char_range = (97, 97)` and `case = "upper"`, the
drawn string is `"a"` (code 97) and the returned string is `"A"`
(code 65), outside the range. -/
theorem generateString_case_escapes_range :
    (generateString 1 1 97 97 [] .upper 1 (fun _ => 1) (fun _ _ => 97)
      (fun _ _ => false)).1 = [[65]] ∧
    ¬ (97 ≤ 65 ∧ 65 ≤ 97) := by
  exact ⟨by decide, by decide⟩

/-- Witness for `generate_string_contract` at concrete in-contract
draws. -/
theorem generate_string_contract_witness :
    (∀ v ∈ (generateString 2 4 97 99 [[98]] .noChange 2
        (fun a => 2 + a % 3) (fun a i => 97 + (a + i) % 3)
        (fun _ _ => false)).1,
      (2 ≤ v.length ∧ v.length ≤ 4) ∧
      (∀ c ∈ v, ∃ c₀, (97 ≤ c₀ ∧ c₀ ≤ 99) ∧
        (c = c₀ ∨ c = upCode c₀ ∨ c = loCode c₀)) ∧
      (CaseOpt.noChange = CaseOpt.noChange → ∀ c ∈ v, 97 ≤ c ∧ c ≤ 99) ∧
      v ∉ [[98]] ∧ (∀ e ∈ [[98]], containsSub e v = false)) ∧
    (generateString 2 4 97 99 [[98]] .noChange 2 (fun a => 2 + a % 3)
      (fun a i => 97 + (a + i) % 3) (fun _ _ => false)).2 ≤ 2 * 100 ∧
    (generateString 2 4 97 99 [[98]] .noChange 2 (fun a => 2 + a % 3)
      (fun a i => 97 + (a + i) % 3) (fun _ _ => false)).1.length ≤ 2 :=
  generate_string_contract 2 4 97 99 [[98]] .noChange 2
    (fun a => 2 + a % 3) (fun a i => 97 + (a + i) % 3) (fun _ _ => false)
    (fun a => by
      show 2 ≤ 2 + a % 3 ∧ 2 + a % 3 ≤ 4
      omega)
    (fun a i => by
      show 97 ≤ 97 + (a + i) % 3 ∧ 97 + (a + i) % 3 ≤ 99
      omega)

/-! ### C8 — seeding and the global `random` module -/

/-- C8 counterexample: generation goes through the process-global
`random` module, not an instance-threaded generator.
`Grader.__init__` constructs `TestCaseGenerator()` without a seed, so
the ambient global state is left in place and the generated values
depend on it: two identically-constructed `Grader` generators, run
under two different ambient streams, produce different value
sequences — refuting "no reliance on ambient global random state". -/
theorem unseeded_generator_depends_on_ambient_state :
    (generateNumSt 0 10 [] 1 (graderGeneratorInit (fun s n => s + n)
      ⟨fun _ => 0, 0⟩)).map (fun p => p.1) = .ok [0] ∧
    (generateNumSt 0 10 [] 1 (graderGeneratorInit (fun s n => s + n)
      ⟨fun _ => 1, 0⟩)).map (fun p => p.1) = .ok [1] ∧
    ([0] : List Int) ≠ [1] :=
  ⟨by decide, by decide, by decide⟩

/-- C8, amended: `TestCaseGenerator.__init__` with a seed reseeds the
*process-global* random stream, so a seeded construction erases the
ambient state and two instances constructed with the same seed (and
used from construction) yield identical value sequences; but no
generator instance is threaded through the calls — construction
without a seed (exactly what `Grader.__init__` does) leaves the
ambient global state in effect. -/
theorem seeded_generation_resets_global_state :
    (∀ (prng : Nat → Nat → Nat) (s : Nat) (g₁ g₂ : PyRng),
      tcgInit prng (some s) g₁ = tcgInit prng (some s) g₂) ∧
    (∀ (prng : Nat → Nat → Nat) (g : PyRng), tcgInit prng none g = g) ∧
    (∀ (prng : Nat → Nat → Nat) (g : PyRng),
      graderGeneratorInit prng g = g) ∧
    (∀ (prng : Nat → Nat → Nat) (s : Nat) (g₁ g₂ : PyRng)
        (lower upper : ℚ) (exclude : List Int) (total : Nat),
      generateNumSt lower upper exclude total (tcgInit prng (some s) g₁) =
        generateNumSt lower upper exclude total (tcgInit prng (some s) g₂)) ∧
    (∀ (prng : Nat → Nat → Nat) (s : Nat) (g₁ g₂ : PyRng) (cfg : GenConfig),
      genValueFromCfg cfg (tcgInit prng (some s) g₁) =
        genValueFromCfg cfg (tcgInit prng (some s) g₂)) :=
  ⟨fun _ _ _ _ => rfl, fun _ _ => rfl, fun _ _ => rfl,
    fun _ _ _ _ _ _ _ _ => rfl, fun _ _ _ _ _ => rfl⟩

/-! ### C10 — composite generators and empty feasible spaces -/

/-- When the whole integer range is excluded, every attempt is
rejected and the loop returns the empty list. -/
theorem genNumLoopSt_all_excluded (lo hi : Int) (hle : lo ≤ hi)
    (exclude : List Int) (hcov : ∀ v, lo ≤ v → v ≤ hi → v ∈ exclude)
    (total : Nat) :
    ∀ (fuel : Nat) (g : PyRng),
      ∃ g', genNumLoopSt lo hi exclude total fuel g [] = .ok ([], g') := by
  intro fuel
  induction fuel with
  | zero => intro g; exact ⟨g, rfl⟩
  | succ fuel' ih =>
    intro g
    by_cases hlt : ([] : List Int).length < total
    · have hm : 0 < hi - lo + 1 := by omega
      have h1 : 0 ≤ Int.ofNat (g.raw g.pos) % (hi - lo + 1) :=
        Int.emod_nonneg _ (by omega)
      have h2 : Int.ofNat (g.raw g.pos) % (hi - lo + 1) < hi - lo + 1 :=
        Int.emod_lt_of_pos _ hm
      have hmem : lo + Int.ofNat (g.raw g.pos) % (hi - lo + 1) ∈ exclude :=
        hcov _ (by omega) (by omega)
      have hnl : ¬ hi < lo := not_lt.mpr hle
      have hrand : randintSt lo hi g =
          .ok (lo + Int.ofNat (g.raw g.pos) % (hi - lo + 1),
            ⟨g.raw, g.pos + 1⟩) := by
        simp [randintSt, hnl]
      have hstep : genNumLoopSt lo hi exclude total (fuel' + 1) g [] =
          genNumLoopSt lo hi exclude total fuel' ⟨g.raw, g.pos + 1⟩ [] := by
        simp only [genNumLoopSt, if_pos hlt, hrand]
        rw [if_pos (Or.inl hmem)]
      rw [hstep]
      exact ih _
    · exact ⟨g, by simp only [genNumLoopSt, if_neg hlt]⟩

/-- `generate_num` with `total_tests=1` over a fully-excluded range
returns the empty list. -/
theorem generateNumSt_all_excluded (lower upper : ℚ) (exclude : List Int)
    (hle : pyInt lower ≤ pyInt upper)
    (hcov : ∀ v, pyInt lower ≤ v → v ≤ pyInt upper → v ∈ exclude)
    (g : PyRng) :
    ∃ g', generateNumSt lower upper exclude 1 g = .ok ([], g') :=
  genNumLoopSt_all_excluded (pyInt lower) (pyInt upper) hle exclude hcov
    1 (1 * 100) g

/-- `generate_num(lower=0, upper=0, total_tests=1)` always returns
`[0]` after one draw. -/
theorem generateNumSt_zero_zero (g : PyRng) :
    generateNumSt 0 0 [] 1 g = .ok ([0], ⟨g.raw, g.pos + 1⟩) := by
  have hpy : pyInt (0 : ℚ) = 0 := by decide
  show genNumLoopSt (pyInt 0) (pyInt 0) [] 1 (1 * 100) g [] = _
  rw [hpy]
  have step1 : genNumLoopSt 0 0 [] 1 (1 * 100) g [] =
      genNumLoopSt 0 0 [] 1 99 ⟨g.raw, g.pos + 1⟩ [0] := by
    show genNumLoopSt 0 0 [] 1 (99 + 1) g [] = _
    simp [genNumLoopSt, randintSt, Int.emod_one]
  have step2 : genNumLoopSt 0 0 [] 1 99 ⟨g.raw, g.pos + 1⟩ [0] =
      .ok ([0], ⟨g.raw, g.pos + 1⟩) := by
    show genNumLoopSt 0 0 [] 1 (98 + 1) _ [0] = _
    simp [genNumLoopSt]
  rw [step1, step2]

/-- C10: the `[0]` indexing after each nested single-value generation
is unguarded — for every `num` element/value/key config whose feasible
unique space is empty (here: every in-range number excluded),
`generate_array` and `generate_dict` raise `IndexError` instead of
returning fewer values or an empty result. -/
theorem composite_generators_raise (lower upper : ℚ) (exclude : List Int)
    (hle : pyInt lower ≤ pyInt upper)
    (hcov : ∀ v : Int, pyInt lower ≤ v → v ≤ pyInt upper → v ∈ exclude) :
    (∀ (total : Nat) (g : PyRng), 0 < total →
      genArrayN [.num lower upper exclude] total g = .error .indexError) ∧
    (∀ (total : Nat) (g : PyRng) (vcfg : GenConfig) (vrest : List GenConfig),
      0 < total →
      genDictN [.num lower upper exclude] (vcfg :: vrest) total g =
        .error .indexError) ∧
    (∀ (total : Nat) (g : PyRng), 0 < total →
      genDictN [.num 0 0 []] [.num lower upper exclude] total g =
        .error .indexError) := by
  have hvalue : ∀ g : PyRng,
      genValueFromCfg (.num lower upper exclude) g = .error .indexError := by
    intro g
    obtain ⟨g', hg'⟩ := generateNumSt_all_excluded lower upper exclude hle hcov g
    simp [genValueFromCfg, hg']
  have hkeybad : ∀ g : PyRng,
      genKeyFromCfg (.num lower upper exclude) g = .error .indexError := by
    intro g
    obtain ⟨g', hg'⟩ := generateNumSt_all_excluded lower upper exclude hle hcov g
    simp [genKeyFromCfg, hg']
  have hkey0 : ∀ g : PyRng, genKeyFromCfg (.num 0 0 []) g =
      .ok (.intV 0, ⟨g.raw, g.pos + 1⟩) := by
    intro g
    simp [genKeyFromCfg, generateNumSt_zero_zero g]
  refine ⟨?_, ?_, ?_⟩
  · intro total g htot
    obtain ⟨n, rfl⟩ : ∃ n, total = n + 1 := ⟨total - 1, by omega⟩
    have hrow : genArrayRow [.num lower upper exclude] g =
        .error .indexError := by
      simp [genArrayRow, hvalue g]
    simp [genArrayN, hrow]
  · intro total g vcfg vrest htot
    obtain ⟨n, rfl⟩ : ∃ n, total = n + 1 := ⟨total - 1, by omega⟩
    have hrow : genDictRow [.num lower upper exclude] (vcfg :: vrest) [] g =
        .error .indexError := by
      simp [genDictRow, hkeybad g]
    simp [genDictN, hrow]
  · intro total g htot
    obtain ⟨n, rfl⟩ : ∃ n, total = n + 1 := ⟨total - 1, by omega⟩
    have hrow : genDictRow [.num 0 0 []] [.num lower upper exclude] [] g =
        .error .indexError := by
      simp [genDictRow, hkey0 g, hvalue]
    simp [genDictN, hrow]

/-- Witness for `composite_generators_raise` at the concrete config
`{"type": "num", "lower": 0, "upper": 0, "exclude": [0]}`. -/
theorem composite_generators_raise_witness :
    genArrayN [.num 0 0 [0]] 1 ⟨fun _ => 0, 0⟩ = .error .indexError :=
  (composite_generators_raise 0 0 [0] (le_refl _)
    (fun v h1 h2 => by
      rw [(by decide : pyInt (0 : ℚ) = 0)] at h1 h2
      have hv : v = 0 := by omega
      simp [hv])).1 1 ⟨fun _ => 0, 0⟩ Nat.one_pos

end Autograder
